import Mathlib

/-!
Verification of the user-authentication service (ALX backend user-data
repository): a shallow embedding of `0x03-user_authentication_service/auth.py`
together with the user store it drives, and of the PII-redaction transform
`filter_datum` from `0x00-personal_data/filtered_logger.py`.

Machine integers do not occur; ids and nonces are `Nat`, strings are Lean
`String`s.  The bcrypt hasher and the UUID generator draw randomness in the
source; here each draw consumes an explicit nonce carried in the state, which
realises the spec contract (fresh salt per hash, fresh unguessable token per
call) deterministically.
-/

/-- Modelled from the spec: output of PasswordHasher (`bcrypt.hashpw`), which
is an opaque value embedding the salt and verify-compatible with exactly the
password it was produced from.  `pw` records that password, `salt` the fresh
salt drawn at hashing time. -/
structure HashedPw where
  pw : String
  salt : Nat
deriving DecidableEq

/-- Modelled from the spec: `bcrypt.hashpw(password, gensalt())`, with the
fresh random salt passed explicitly. -/
def hashpw (password : String) (salt : Nat) : HashedPw :=
  ⟨password, salt⟩

/-- Modelled from the spec: `bcrypt.checkpw` — true iff `password` was the
input used to produce the hash. -/
def checkpw (password : String) (h : HashedPw) : Bool :=
  password == h.pw

/-- Serialized form of a bcrypt hash, as it is stored in the database column:
a `$2b$12$` header, the salt, a separator and the hash payload. -/
def hashString (h : HashedPw) : String :=
  "$2b$12$" ++ toString h.salt ++ "$" ++ h.pw

/-- Embeds `_hash_password` of auth.py: hash a password with a (fresh) salt. -/
def hash_password (password : String) (salt : Nat) : HashedPw :=
  hashpw password salt

/-- Embeds `_generate_uuid` of auth.py: `str(uuid4())`, with the randomness
replaced by an explicit nonce; distinct nonces give distinct tokens. -/
def generate_uuid (nonce : Nat) : String :=
  "uuid-" ++ toString nonce

/-- Embeds the `User` ORM model of user.py: id, email, hashed_password,
optional session_id, optional reset_token. -/
structure User where
  id : Nat
  email : String
  hashed_password : HashedPw
  session_id : Option String
  reset_token : Option String
deriving DecidableEq

/-- The authentication database: the users table plus the id counter and the
nonce counter feeding the salt/UUID draws. -/
structure AuthState where
  users : List User
  nextId : Nat
  nonce : Nat
deriving DecidableEq

/-- The empty database, as seen by a fresh `Auth()` instance. -/
def initState : AuthState :=
  ⟨[], 1, 0⟩

/-- Modelled from the spec: `DB.find_user_by(email=e)` (db.py is not among
the staged files) — the first user whose email matches, or NotFound. -/
def find_user_by_email (s : AuthState) (e : String) : Option User :=
  s.users.find? (fun u => u.email == e)

/-- Modelled from the spec: `DB.find_user_by(id=i)`. -/
def find_user_by_id (s : AuthState) (i : Nat) : Option User :=
  s.users.find? (fun u => u.id == i)

/-- Modelled from the spec: `DB.find_user_by(session_id=t)` for a non-null
token `t`. -/
def find_user_by_session (s : AuthState) (t : String) : Option User :=
  s.users.find? (fun u => u.session_id == some t)

/-- Modelled from the spec: `DB.find_user_by(reset_token=t)` for a non-null
token `t`. -/
def find_user_by_reset_token (s : AuthState) (t : String) : Option User :=
  s.users.find? (fun u => u.reset_token == some t)

/-- Modelled from the spec: `DB.add_user(email, hashed_password)` — creates a
user with a fresh id, no session and no reset token, and appends it. -/
def add_user (s : AuthState) (e : String) (h : HashedPw) : User × AuthState :=
  let u : User := ⟨s.nextId, e, h, none, none⟩
  (u, { s with users := s.users ++ [u], nextId := s.nextId + 1 })

/-- Modelled from the spec: `DB.update_user(id, **fields)` — partial update of
the mutable fields of the user(s) with the given id; `f` applies exactly the
keyword assignments of the call site. -/
def update_user (s : AuthState) (i : Nat) (f : User → User) : AuthState :=
  { s with users := s.users.map (fun u => if u.id == i then f u else u) }

/-- The named failures of the service, per the spec's error taxonomy; the
source raises `ValueError` at the three corresponding sites. -/
inductive AuthError where
  | userAlreadyExists
  | userNotFound
  | invalidResetToken
deriving DecidableEq

/-- Embeds `Auth.register_user`: reject an email that is already registered,
otherwise hash the password, add the user and return it. -/
def register_user (s : AuthState) (email password : String) :
    Except AuthError (User × AuthState) :=
  match find_user_by_email s email with
  | some _ => .error .userAlreadyExists
  | none =>
    let h := hash_password password s.nonce
    let (u, s₁) := add_user { s with nonce := s.nonce + 1 } email h
    .ok (u, s₁)

/-- Embeds `Auth.valid_login`: false when the email is unknown, otherwise the
result of `checkpw` against the stored hash. -/
def valid_login (s : AuthState) (email password : String) : Bool :=
  match find_user_by_email s email with
  | none => false
  | some u => checkpw password u.hashed_password

/-- Embeds `Auth.create_session`: `None` when the email is unknown, otherwise
store a fresh UUID as the user's session_id and return it. -/
def create_session (s : AuthState) (email : String) :
    Option String × AuthState :=
  match find_user_by_email s email with
  | none => (none, s)
  | some u =>
    let t := generate_uuid s.nonce
    let s₁ := update_user { s with nonce := s.nonce + 1 } u.id
      (fun v => { v with session_id := some t })
    (some t, s₁)

/-- Embeds `Auth.get_user_from_session_id`: `None` for a `None` token,
otherwise the store lookup by session_id (`None` on NotFound). -/
def get_user_from_session_id (s : AuthState) (session_id : Option String) :
    Option User :=
  match session_id with
  | none => none
  | some t => find_user_by_session s t

/-- Embeds `Auth.destroy_session`: no-op for a `None` id or an unknown id,
otherwise set the user's session_id to `None`. -/
def destroy_session (s : AuthState) (user_id : Option Nat) : AuthState :=
  match user_id with
  | none => s
  | some i =>
    match find_user_by_id s i with
    | none => s
    | some u => update_user s u.id (fun v => { v with session_id := none })

/-- Embeds `Auth.get_reset_password_token`: fail on an unknown email,
otherwise store a fresh UUID as the user's reset_token and return it. -/
def get_reset_password_token (s : AuthState) (email : String) :
    Except AuthError (String × AuthState) :=
  match find_user_by_email s email with
  | none => .error .userNotFound
  | some u =>
    let t := generate_uuid s.nonce
    let s₁ := update_user { s with nonce := s.nonce + 1 } u.id
      (fun v => { v with reset_token := some t })
    .ok (t, s₁)

/-- Embeds `Auth.update_password`: return silently when either argument is
`None`; fail when no user holds the reset token; otherwise hash the new
password and, in one store update, install it and clear the reset token. -/
def update_password (s : AuthState) (reset_token password : Option String) :
    Except AuthError AuthState :=
  match reset_token, password with
  | some t, some p =>
    match find_user_by_reset_token s t with
    | none => .error .invalidResetToken
    | some u =>
      let h := hash_password p s.nonce
      .ok (update_user { s with nonce := s.nonce + 1 } u.id
        (fun v => { v with hashed_password := h, reset_token := none }))
  | _, _ => .ok s

/-! ## Helper lemmas about the store -/

/-- Mapping a function that fixes every element of a list is the identity. -/
theorem map_eq_self_of_fix {α : Type} (l : List α) (f : α → α)
    (h : ∀ x ∈ l, f x = x) : l.map f = l := by
  have h2 : ∀ x ∈ l, f x = id x := h
  rw [List.map_congr_left h2, List.map_id]

/-- Lookup in an updated store: a predicate invariant under the field update
finds the (updated image of the) same user as before. -/
theorem find?_update_user (s : AuthState) (i : Nat) (f : User → User)
    (p : User → Bool) (hp : ∀ u, p (f u) = p u) :
    (update_user s i f).users.find? p
      = (s.users.find? p).map (fun u => if u.id == i then f u else u) := by
  show (s.users.map fun u => if u.id == i then f u else u).find? p = _
  rw [List.find?_map]
  have hcomp : (p ∘ fun u => if u.id == i then f u else u) = p := by
    funext u
    by_cases h : (u.id == i) = true <;> simp [Function.comp, h, hp]
  rw [hcomp]

/-- The users list of an updated store, spelled out. -/
theorem update_user_users (s : AuthState) (i : Nat) (f : User → User) :
    (update_user s i f).users
      = s.users.map (fun u => if u.id == i then f u else u) := rfl

/-! ## Claim C5: get_user_from_session on None/empty tokens

The source guards only `session_id is None`; an empty-string token is looked
up in the store like any other token. -/

/-- A user whose stored session_id is the empty string; the store's `update`
accepts any string for this mutable field, so this state is constructible. -/
def sessionEmptyUser : User :=
  ⟨1, "a@x.com", hashpw "pw" 0, some "", none⟩

/-- A store holding `sessionEmptyUser`. -/
def sessionEmptyState : AuthState :=
  ⟨[sessionEmptyUser], 2, 1⟩

/-- C5 counterexample: for the empty-string token the code does perform the
store lookup, and here it returns a user instead of the `None` the claim
demands for every empty token. -/
theorem c5_empty_token_counterexample :
    get_user_from_session_id sessionEmptyState (some "") = some sessionEmptyUser
    ∧ get_user_from_session_id sessionEmptyState (some "") ≠ none := by
  refine ⟨rfl, ?_⟩
  intro h
  rw [show get_user_from_session_id sessionEmptyState (some "")
      = some sessionEmptyUser from rfl] at h
  exact Option.noConfusion h

/-- C5 (amended): `get_user_from_session_id` returns `None` for a `None`
token without consulting the store; for any present token, empty or not, it
performs the store lookup: `None` when no user's session_id matches, and
otherwise the matching user (a member of the store whose stored session_id
equals the token). -/
theorem get_user_from_session_id_spec (s : AuthState) (t : String) :
    get_user_from_session_id s none = none
    ∧ (find_user_by_session s t = none →
        get_user_from_session_id s (some t) = none)
    ∧ (∀ u, find_user_by_session s t = some u →
        get_user_from_session_id s (some t) = some u
          ∧ u ∈ s.users ∧ u.session_id = some t) := by
  refine ⟨rfl, fun h => h, fun u h => ⟨h, List.mem_of_find?_eq_some h, ?_⟩⟩
  have hb := List.find?_some h
  exact eq_of_beq hb

/-- C5 amended-claim witness at a concrete store. -/
theorem get_user_from_session_id_spec_witness :
    get_user_from_session_id sessionEmptyState (some "zzz") = none :=
  (get_user_from_session_id_spec sessionEmptyState "zzz").2.1 rfl

/-! ## Claim C6: update_password argument guard

The source returns early only when an argument is literally `None`; empty
strings fall through to the reset-token lookup. -/

/-- A store with one registered user holding no reset token. -/
def noTokenState : AuthState :=
  ⟨[⟨1, "a@x.com", hashpw "pw" 0, none, none⟩], 2, 1⟩

/-- C6 counterexample: with an empty-string reset token the call is not a
no-op — it raises `InvalidResetToken` instead of returning silently. -/
theorem c6_empty_args_counterexample :
    update_password noTokenState (some "") (some "x")
      = .error .invalidResetToken
    ∧ update_password noTokenState (some "") (some "x") ≠ .ok noTokenState := by
  refine ⟨rfl, ?_⟩
  intro h
  rw [show update_password noTokenState (some "") (some "x")
      = .error .invalidResetToken from rfl] at h
  exact Except.noConfusion h

/-- C6 (amended): `update_password` is a no-op returning silently exactly
when either argument is `None`; when both are present (even as empty
strings) and no user's stored reset_token matches, it fails with
`InvalidResetToken`. -/
theorem update_password_guard_spec (s : AuthState) (t p : String) :
    (∀ q : Option String, update_password s none q = .ok s)
    ∧ (∀ q : Option String, update_password s q none = .ok s)
    ∧ (find_user_by_reset_token s t = none →
        update_password s (some t) (some p) = .error .invalidResetToken) := by
  refine ⟨fun q => ?_, fun q => ?_, fun h => ?_⟩
  · cases q <;> rfl
  · cases q <;> rfl
  · simp [update_password, h]

/-- C6 amended-claim witness at a concrete store. -/
theorem update_password_guard_spec_witness :
    update_password noTokenState (some "tok") (some "x")
      = .error .invalidResetToken :=
  (update_password_guard_spec noTokenState "tok" "x").2.2 rfl

/-! ## Claim C7: destroy_session is an idempotent no-op-friendly logout -/

/-- Reduction of `destroy_session` when the user id is found. -/
theorem destroy_session_some_eq (s : AuthState) (i : Nat) (u₀ : User)
    (h : find_user_by_id s i = some u₀) :
    destroy_session s (some i)
      = update_user s u₀.id (fun v => { v with session_id := none }) := by
  simp [destroy_session, h]

/-- Updating with a function that fixes every user carrying the id is the
identity on the store. -/
theorem update_user_eq_self (s : AuthState) (i : Nat) (f : User → User)
    (h : ∀ x ∈ s.users, (x.id == i) = true → f x = x) :
    update_user s i f = s := by
  have hm : s.users.map (fun u => if u.id == i then f u else u) = s.users := by
    refine map_eq_self_of_fix _ _ ?_
    intro x hx
    by_cases h2 : (x.id == i) = true
    · rw [if_pos h2]
      exact h x hx h2
    · rw [if_neg h2]
  show { s with users := s.users.map (fun u => if u.id == i then f u else u) } = s
  rw [hm]

/-- Clearing an already-absent session leaves the user record unchanged. -/
theorem clear_session_eq_self (x : User) (h : x.session_id = none) :
    { x with session_id := none } = x := by
  cases x with
  | mk a b c d e =>
    cases h
    rfl

/-- C7: logout is idempotent and harmless — a `None` or unknown id is a
no-op; after a destroy the targeted user's session_id is `None`; a second
destroy with the same id changes nothing; and no user record is deleted
(the store keeps the same ids and emails). -/
theorem destroy_session_idempotent (s : AuthState) (i : Nat) :
    destroy_session s none = s
    ∧ (find_user_by_id s i = none → destroy_session s (some i) = s)
    ∧ (∀ u ∈ (destroy_session s (some i)).users,
        u.id = i → u.session_id = none)
    ∧ destroy_session (destroy_session s (some i)) (some i)
        = destroy_session s (some i)
    ∧ (destroy_session s (some i)).users.length = s.users.length
    ∧ (destroy_session s (some i)).users.map (fun u => (u.id, u.email))
        = s.users.map (fun u => (u.id, u.email)) := by
  cases hf : find_user_by_id s i with
  | none =>
    have hds : destroy_session s (some i) = s := by simp [destroy_session, hf]
    have hf2 : s.users.find? (fun u => u.id == i) = none := hf
    have hnone := List.find?_eq_none.mp hf2
    refine ⟨rfl, fun _ => hds, ?_, ?_, ?_, ?_⟩
    · intro u hu hid
      rw [hds] at hu
      exact absurd (beq_iff_eq.mpr hid) (hnone u hu)
    · rw [hds, hds]
    · rw [hds]
    · rw [hds]
  | some u₀ =>
    have hf2 : s.users.find? (fun u => u.id == i) = some u₀ := hf
    have hb₀ : (u₀.id == i) = true :=
      @List.find?_some User (fun u => u.id == i) u₀ s.users hf2
    have hid₀ : u₀.id = i := eq_of_beq hb₀
    have hds := destroy_session_some_eq s i u₀ hf
    have hmem3 : ∀ u ∈ (destroy_session s (some i)).users,
        u.id = i → u.session_id = none := by
      intro u hu hid
      rw [hds, update_user_users] at hu
      obtain ⟨w, hw, hwu⟩ := List.mem_map.mp hu
      by_cases h2 : (w.id == u₀.id) = true
      · rw [if_pos h2] at hwu
        rw [← hwu]
      · rw [if_neg h2] at hwu
        subst hwu
        exact absurd (beq_iff_eq.mpr (hid.trans hid₀.symm)) h2
    have hfind2 : find_user_by_id (destroy_session s (some i)) i
        = some { u₀ with session_id := none } := by
      rw [hds]
      show (update_user s u₀.id (fun v => { v with session_id := none })).users.find?
        (fun u => u.id == i) = _
      rw [find?_update_user s u₀.id (fun v => { v with session_id := none })
        (fun u => u.id == i) (fun u => rfl), hf2]
      simp
    refine ⟨rfl, fun hc => Option.noConfusion hc, hmem3, ?_, ?_, ?_⟩
    · rw [destroy_session_some_eq (destroy_session s (some i)) i
        { u₀ with session_id := none } hfind2]
      refine update_user_eq_self _ _ _ ?_
      intro x hx hbx
      have hxid : x.id = i := (eq_of_beq hbx).trans hid₀
      exact clear_session_eq_self x (hmem3 x hx hxid)
    · rw [hds, update_user_users]
      exact List.length_map _ _
    · rw [hds, update_user_users, List.map_map]
      refine List.map_congr_left ?_
      intro w hw
      by_cases h2 : (w.id == u₀.id) = true
      · simp [Function.comp, h2]
      · simp [Function.comp, h2]

/-- C7 witness: concrete idempotent logout on a one-user store. -/
theorem destroy_session_idempotent_witness :
    destroy_session noTokenState none = noTokenState
    ∧ destroy_session (destroy_session noTokenState (some 1)) (some 1)
        = destroy_session noTokenState (some 1) :=
  ⟨(destroy_session_idempotent noTokenState 1).1,
   (destroy_session_idempotent noTokenState 1).2.2.2.1⟩

/-! ## More store lemmas -/

/-- find? only depends on the predicate's values on the list's members. -/
theorem find?_ext {α : Type} (l : List α) (p q : α → Bool)
    (h : ∀ x ∈ l, p x = q x) : l.find? p = l.find? q := by
  induction l with
  | nil => rfl
  | cons a as ih =>
    by_cases hp : p a = true
    · have hq : q a = true := (h a (List.mem_cons_self a as)) ▸ hp
      rw [List.find?_cons_of_pos _ hp, List.find?_cons_of_pos _ hq]
    · have hq : ¬ q a = true := (h a (List.mem_cons_self a as)) ▸ hp
      rw [List.find?_cons_of_neg _ hp, List.find?_cons_of_neg _ hq]
      exact ih (fun x hx => h x (List.mem_cons_of_mem a hx))

/-- With duplicate-free ids, the id lookup of a member finds exactly it. -/
theorem find?_id_of_nodup (l : List User)
    (hnd : (l.map (fun u => u.id)).Nodup) (a : User) (ha : a ∈ l) :
    l.find? (fun x => x.id == a.id) = some a := by
  induction l with
  | nil => exact absurd ha (List.not_mem_nil a)
  | cons b bs ih =>
    rw [List.map_cons, List.nodup_cons] at hnd
    rcases List.mem_cons.mp ha with rfl | h1
    · exact @List.find?_cons_of_pos User (fun x => x.id == a.id) a bs (by simp)
    · by_cases hb : (b.id == a.id) = true
      · exact absurd ((eq_of_beq hb) ▸ List.mem_map_of_mem (fun u => u.id) h1)
          hnd.1
      · rw [@List.find?_cons_of_neg User (fun x => x.id == a.id) b bs hb]
        exact ih hnd.2 h1

/-- Membership in an updated store. -/
theorem mem_update_user (s : AuthState) (i : Nat) (f : User → User) (x : User) :
    x ∈ (update_user s i f).users
      ↔ ∃ w ∈ s.users, (if w.id == i then f w else w) = x := by
  rw [update_user_users]
  exact List.mem_map

/-! ## Claim C1: reset tokens are single use -/

/-- C1: a reset token T issued by `get_reset_password_token` and consumed by a
successful `update_password(T, p)` is cleared in the same store update that
installs the new password: afterwards no stored user holds T, the updated
user has reset_token `None` while verifying against the new password, and a
second `update_password(T, _)` fails with `InvalidResetToken`. -/
theorem reset_token_single_use (s : AuthState) (e t p p' : String)
    (s₁ s₂ : AuthState)
    (h1 : get_reset_password_token s e = .ok (t, s₁))
    (hfresh : ∀ u ∈ s.users, u.reset_token ≠ some t)
    (h2 : update_password s₁ (some t) (some p) = .ok s₂) :
    (∀ u ∈ s₂.users, u.reset_token ≠ some t)
    ∧ update_password s₂ (some t) (some p') = .error .invalidResetToken
    ∧ ∃ u ∈ s₂.users, u.reset_token = none ∧ checkpw p u.hashed_password = true := by
  cases hfe : find_user_by_email s e with
  | none => exact absurd h1 (by simp [get_reset_password_token, hfe])
  | some u₀ =>
    simp only [get_reset_password_token, hfe, Except.ok.injEq, Prod.mk.injEq] at h1
    obtain ⟨ht, hs₁⟩ := h1
    subst hs₁
    subst ht
    have hF1 : ∀ x ∈ (update_user { s with nonce := s.nonce + 1 } u₀.id
        (fun v => { v with reset_token := some (generate_uuid s.nonce) })).users,
        x.reset_token = some (generate_uuid s.nonce) → x.id = u₀.id := by
      intro x hx hrx
      obtain ⟨w, hw, hwx⟩ := (mem_update_user _ _ _ x).mp hx
      by_cases hb : (w.id == u₀.id) = true
      · rw [if_pos hb] at hwx
        rw [← hwx]
        exact eq_of_beq hb
      · rw [if_neg hb] at hwx
        subst hwx
        exact absurd hrx (hfresh w hw)
    cases hfr : find_user_by_reset_token (update_user { s with nonce := s.nonce + 1 }
        u₀.id (fun v => { v with reset_token := some (generate_uuid s.nonce) }))
        (generate_uuid s.nonce) with
    | none => exact absurd h2 (by simp [update_password, hfr])
    | some u₁ =>
      simp only [update_password, hfr, Except.ok.injEq] at h2
      have hu₁mem : u₁ ∈ (update_user { s with nonce := s.nonce + 1 } u₀.id
          (fun v => { v with reset_token := some (generate_uuid s.nonce) })).users :=
        List.mem_of_find?_eq_some hfr
      have hu₁tok : u₁.reset_token = some (generate_uuid s.nonce) :=
        eq_of_beq (@List.find?_some User
          (fun u => u.reset_token == some (generate_uuid s.nonce)) u₁ _ hfr)
      have hA : ∀ x ∈ s₂.users, x.reset_token ≠ some (generate_uuid s.nonce) := by
        intro x hx
        rw [← h2] at hx
        obtain ⟨w, hw, hwx⟩ := (mem_update_user _ _ _ x).mp hx
        by_cases hb : (w.id == u₁.id) = true
        · rw [if_pos hb] at hwx
          rw [← hwx]
          intro hc
          exact Option.noConfusion hc
        · rw [if_neg hb] at hwx
          subst hwx
          intro hc
          exact hb (beq_iff_eq.mpr ((hF1 w hw hc).trans
            (hF1 u₁ hu₁mem hu₁tok).symm))
      have hB : find_user_by_reset_token s₂ (generate_uuid s.nonce) = none :=
        List.find?_eq_none.mpr (fun x hx hbe => hA x hx (eq_of_beq hbe))
      refine ⟨hA, by simp [update_password, hB], ?_⟩
      refine ⟨{ u₁ with
          hashed_password := hash_password p (update_user { s with nonce := s.nonce + 1 }
            u₀.id (fun v => { v with reset_token := some (generate_uuid s.nonce) })).nonce,
          reset_token := none }, ?_, rfl, ?_⟩
      · rw [← h2]
        exact (mem_update_user _ _ _ _).mpr ⟨u₁, hu₁mem, by rw [if_pos (by simp)]⟩
      · simp [checkpw, hash_password, hashpw]

/-- Store after registering one user (register_user on the empty store). -/
def wState : AuthState := ⟨[⟨1, "a@x.com", hashpw "pw" 0, none, none⟩], 2, 1⟩

/-- Store after a reset token was issued for the user of `wState`. -/
def wStateReset : AuthState :=
  ⟨[⟨1, "a@x.com", hashpw "pw" 0, none, some "uuid-1"⟩], 2, 2⟩

/-- Store after `update_password` consumed the token of `wStateReset`. -/
def wStateDone : AuthState :=
  ⟨[⟨1, "a@x.com", hashpw "new" 2, none, none⟩], 2, 3⟩

/-- C1 witness: the concrete scenario register → reset → update_password,
where the second update_password with the same token fails. -/
theorem reset_token_single_use_witness :
    update_password wStateDone (some "uuid-1") (some "again")
      = .error .invalidResetToken :=
  (reset_token_single_use wState "a@x.com" "uuid-1" "new" "again"
    wStateReset wStateDone rfl (by decide) rfl).2.1

/-- Setting the nonce leaves the users table unchanged. -/
theorem users_set_nonce (s : AuthState) (n : Nat) :
    ({ s with nonce := n } : AuthState).users = s.users := rfl

/-! ## Claim C10: update_password only touches hash and reset token -/

/-- C10: a successful `update_password` changes only the token-owner's
hashed_password and reset_token; that user's id, email and session_id, and
every field of every other user, are unchanged (the lists line up pairwise),
so an active session survives a password reset. -/
theorem update_password_frame (s : AuthState) (t p : String) (s₂ : AuthState)
    (h : update_password s (some t) (some p) = .ok s₂) :
    ∃ u, find_user_by_reset_token s t = some u
      ∧ List.Forall₂ (fun v v' =>
          v'.id = v.id ∧ v'.email = v.email ∧ v'.session_id = v.session_id
          ∧ (v.id ≠ u.id → v' = v)
          ∧ (v.id = u.id → v'.hashed_password = hash_password p s.nonce
              ∧ v'.reset_token = none)) s.users s₂.users := by
  cases hfr : find_user_by_reset_token s t with
  | none => exact absurd h (by simp [update_password, hfr])
  | some u =>
    simp only [update_password, hfr, Except.ok.injEq] at h
    refine ⟨u, rfl, ?_⟩
    rw [← h, update_user_users, users_set_nonce]
    refine List.forall₂_map_right_iff.mpr (List.forall₂_same.mpr ?_)
    intro v hv
    by_cases hb : (v.id == u.id) = true
    · rw [if_pos hb]
      exact ⟨rfl, rfl, rfl, fun hne => absurd (eq_of_beq hb) hne,
        fun _ => ⟨rfl, rfl⟩⟩
    · rw [if_neg hb]
      exact ⟨rfl, rfl, rfl, fun _ => rfl,
        fun heq => absurd (beq_iff_eq.mpr heq) hb⟩

/-- C10 witness: the concrete reset scenario, framed. -/
theorem update_password_frame_witness :
    ∃ u, find_user_by_reset_token wStateReset "uuid-1" = some u
      ∧ List.Forall₂ (fun v v' =>
          v'.id = v.id ∧ v'.email = v.email ∧ v'.session_id = v.session_id
          ∧ (v.id ≠ u.id → v' = v)
          ∧ (v.id = u.id → v'.hashed_password = hash_password "new" wStateReset.nonce
              ∧ v'.reset_token = none)) wStateReset.users wStateDone.users :=
  update_password_frame wStateReset "uuid-1" "new" wStateDone rfl

/-! ## Claim C4: session round-trip -/

/-- Clearing the session of the only id that could hold the token removes
every session match for it. -/
theorem no_session_after_clear (s' : AuthState) (tok : String) (j : Nat)
    (hall : ∀ x ∈ s'.users, x.session_id = some tok → x.id = j) :
    find_user_by_session
      (update_user s' j (fun v => { v with session_id := none })) tok = none := by
  apply List.find?_eq_none.mpr
  intro x hx
  obtain ⟨w, hw, hwx⟩ := (mem_update_user s' j _ x).mp hx
  by_cases hb : (w.id == j) = true
  · rw [if_pos hb] at hwx
    rw [← hwx]
    intro hbe
    exact Option.noConfusion (eq_of_beq hbe)
  · rw [if_neg hb] at hwx
    subst hwx
    intro hbe
    exact hb (beq_iff_eq.mpr (hall w hw (eq_of_beq hbe)))

/-- C4: when `create_session(E)` hands out a fresh token T, looking T up via
`get_user_from_session_id` yields exactly the user `find_by_email(E)` yields;
and after `destroy_session` of that user's id, T resolves to `None`. -/
theorem session_round_trip (s : AuthState) (e t : String) (s₁ : AuthState)
    (h1 : create_session s e = (some t, s₁))
    (hfresh : ∀ u ∈ s.users, u.session_id ≠ some t)
    (hids : (s.users.map (fun u => u.id)).Nodup) :
    (∃ u₁, find_user_by_email s₁ e = some u₁)
    ∧ get_user_from_session_id s₁ (some t) = find_user_by_email s₁ e
    ∧ (∀ u₁, find_user_by_email s₁ e = some u₁ →
        get_user_from_session_id (destroy_session s₁ (some u₁.id)) (some t)
          = none) := by
  cases hfe : find_user_by_email s e with
  | none => exact absurd h1 (by simp [create_session, hfe])
  | some u₀ =>
    have hfe₂ : s.users.find? (fun u => u.email == e) = some u₀ := hfe
    have hu₀mem : u₀ ∈ s.users := List.mem_of_find?_eq_some hfe₂
    simp only [create_session, hfe, Prod.mk.injEq, Option.some.injEq] at h1
    obtain ⟨ht, hs₁⟩ := h1
    subst hs₁
    subst ht
    have hmail : find_user_by_email (update_user { s with nonce := s.nonce + 1 }
        u₀.id (fun v => { v with session_id := some (generate_uuid s.nonce) })) e
        = some { u₀ with session_id := some (generate_uuid s.nonce) } := by
      show (update_user { s with nonce := s.nonce + 1 } u₀.id
        (fun v => { v with session_id := some (generate_uuid s.nonce) })).users.find?
        (fun u => u.email == e) = _
      rw [find?_update_user _ u₀.id
        (fun v => { v with session_id := some (generate_uuid s.nonce) })
        (fun u => u.email == e) (fun u => rfl)]
      rw [users_set_nonce, hfe₂]
      simp
    have hsess : find_user_by_session (update_user { s with nonce := s.nonce + 1 }
        u₀.id (fun v => { v with session_id := some (generate_uuid s.nonce) }))
        (generate_uuid s.nonce)
        = some { u₀ with session_id := some (generate_uuid s.nonce) } := by
      show (update_user { s with nonce := s.nonce + 1 } u₀.id
        (fun v => { v with session_id := some (generate_uuid s.nonce) })).users.find?
        (fun u => u.session_id == some (generate_uuid s.nonce)) = _
      rw [update_user_users, users_set_nonce, List.find?_map]
      have hpe : ∀ w ∈ s.users,
          ((fun u => u.session_id == some (generate_uuid s.nonce)) ∘
            (fun u => if u.id == u₀.id
              then { u with session_id := some (generate_uuid s.nonce) } else u)) w
          = (fun x => x.id == u₀.id) w := by
        intro w hw
        show ((if w.id == u₀.id
          then { w with session_id := some (generate_uuid s.nonce) } else w).session_id
            == some (generate_uuid s.nonce)) = (w.id == u₀.id)
        by_cases hb : (w.id == u₀.id) = true
        · rw [if_pos hb, hb]
          simp
        · rw [if_neg hb, eq_false_of_ne_true hb]
          exact beq_eq_false_iff_ne.mpr (hfresh w hw)
      rw [find?_ext s.users _ _ hpe, find?_id_of_nodup s.users hids u₀ hu₀mem]
      simp
    refine ⟨⟨_, hmail⟩, ?_, ?_⟩
    · show find_user_by_session _ (generate_uuid s.nonce) = _
      rw [hsess, hmail]
    · intro u₁ hu₁
      have hid₁ : u₁.id = u₀.id := by
        have h2 : some u₁
            = some { u₀ with session_id := some (generate_uuid s.nonce) } := by
          rw [← hu₁, hmail]
        have h3 := Option.some.inj h2
        rw [h3]
      have hfid : find_user_by_id (update_user { s with nonce := s.nonce + 1 }
          u₀.id (fun v => { v with session_id := some (generate_uuid s.nonce) }))
          u₁.id = some { u₀ with session_id := some (generate_uuid s.nonce) } := by
        show (update_user { s with nonce := s.nonce + 1 } u₀.id
          (fun v => { v with session_id := some (generate_uuid s.nonce) })).users.find?
          (fun x => x.id == u₁.id) = _
        rw [update_user_users, users_set_nonce, List.find?_map]
        have hpe2 : ∀ w ∈ s.users,
            ((fun x => x.id == u₁.id) ∘
              (fun u => if u.id == u₀.id
                then { u with session_id := some (generate_uuid s.nonce) } else u)) w
            = (fun x => x.id == u₀.id) w := by
          intro w hw
          show ((if w.id == u₀.id
            then { w with session_id := some (generate_uuid s.nonce) } else w).id
              == u₁.id) = (w.id == u₀.id)
          by_cases hb : (w.id == u₀.id) = true
          · rw [if_pos hb]
            show (w.id == u₁.id) = (w.id == u₀.id)
            rw [hid₁]
          · rw [if_neg hb]
            show (w.id == u₁.id) = (w.id == u₀.id)
            rw [hid₁]
        rw [find?_ext s.users _ _ hpe2, find?_id_of_nodup s.users hids u₀ hu₀mem]
        simp
      rw [destroy_session_some_eq _ u₁.id _ hfid]
      refine no_session_after_clear _ _ _ ?_
      intro x hx hxs
      obtain ⟨w, hw, hwx⟩ := (mem_update_user _ _ _ x).mp hx
      by_cases hb : (w.id == u₀.id) = true
      · rw [if_pos hb] at hwx
        rw [← hwx]
        exact eq_of_beq hb
      · rw [if_neg hb] at hwx
        subst hwx
        exact absurd hxs (hfresh w hw)

/-- Store after `create_session` on `wState`. -/
def wSess : AuthState :=
  ⟨[⟨1, "a@x.com", hashpw "pw" 0, some "uuid-1", none⟩], 2, 2⟩

/-- C4 witness: the concrete round trip on a one-user store. -/
theorem session_round_trip_witness :
    get_user_from_session_id wSess (some "uuid-1")
      = find_user_by_email wSess "a@x.com"
    ∧ get_user_from_session_id (destroy_session wSess (some 1))
        (some "uuid-1") = none :=
  ⟨(session_round_trip wState "a@x.com" "uuid-1" wSess rfl (by decide)
      (by decide)).2.1,
   (session_round_trip wState "a@x.com" "uuid-1" wSess rfl (by decide)
      (by decide)).2.2 ⟨1, "a@x.com", hashpw "pw" 0, some "uuid-1", none⟩ rfl⟩

/-! ## Traces of service operations

The claims about login correctness, registration uniqueness and hashing
discipline quantify over whole histories of the service.  An `Op` is one
inbound request; `steps` folds a history over the embedded operations.  The
ghost association list records, for each registered email, the plaintext of
the password supplied at registration or at the most recent successful
`update_password` for that user — exactly the password the spec says
`valid_login` must accept. -/

/-- One request-shaped intent sent to the Auth service. -/
inductive Op where
  | register (e p : String)
  | login (e p : String)
  | createSession (e : String)
  | getSession (t : Option String)
  | destroySession (i : Option Nat)
  | getReset (e : String)
  | updatePw (t p : Option String)

/-- Ghost state: email ↦ last accepted plaintext password. -/
abbrev Ghost : Type := List (String × String)

/-- Lookup in the ghost map. -/
def ghostLookup (g : Ghost) (e : String) : Option String :=
  (g.find? (fun kv => kv.1 == e)).map (fun kv => kv.2)

/-- Update (or insert) a binding of the ghost map. -/
def ghostSet (g : Ghost) (e p : String) : Ghost :=
  if (g.find? (fun kv => kv.1 == e)).isSome
  then g.map (fun kv => if kv.1 == e then (e, p) else kv)
  else g ++ [(e, p)]

/-- One step: run the requested operation on the state (exceptions leave the
store untouched, as in the source, where the raise precedes any mutation)
and mirror the spec's password bookkeeping in the ghost map. -/
def stepG (sg : AuthState × Ghost) (op : Op) : AuthState × Ghost :=
  match op with
  | .register e p =>
    match register_user sg.1 e p with
    | .ok (_, s₁) => (s₁, ghostSet sg.2 e p)
    | .error _ => sg
  | .login _ _ => sg
  | .createSession e => ((create_session sg.1 e).2, sg.2)
  | .getSession _ => sg
  | .destroySession i => (destroy_session sg.1 i, sg.2)
  | .getReset e =>
    match get_reset_password_token sg.1 e with
    | .ok (_, s₁) => (s₁, sg.2)
    | .error _ => sg
  | .updatePw t p =>
    match t, p with
    | some tok, some pw =>
      match update_password sg.1 (some tok) (some pw),
          find_user_by_reset_token sg.1 tok with
      | .ok s₁, some u => (s₁, ghostSet sg.2 u.email pw)
      | _, _ => sg
    | _, _ => sg

/-- Run a history of operations. -/
def steps (sg : AuthState × Ghost) : List Op → AuthState × Ghost
  | [] => sg
  | op :: ops => steps (stepG sg op) ops

/-- Run a history from the empty store. -/
def runAll (ops : List Op) : AuthState × Ghost :=
  steps (initState, []) ops

/-! ## Ghost-map lemmas -/

/-- After a set, the bound email maps to the new password. -/
theorem ghostLookup_set_self (g : Ghost) (e p : String) :
    ghostLookup (ghostSet g e p) e = some p := by
  unfold ghostSet
  by_cases hf : (g.find? (fun kv => kv.1 == e)).isSome = true
  · rw [if_pos hf]
    unfold ghostLookup
    rw [List.find?_map]
    have hcomp : ((fun kv : String × String => kv.1 == e) ∘
        (fun kv => if kv.1 == e then (e, p) else kv))
        = (fun kv : String × String => kv.1 == e) := by
      funext kv
      show ((if kv.1 == e then (e, p) else kv).1 == e) = (kv.1 == e)
      by_cases hb : (kv.1 == e) = true
      · rw [if_pos hb, hb]
        simp
      · rw [if_neg hb]
    rw [hcomp]
    obtain ⟨kv₀, hkv⟩ := Option.isSome_iff_exists.mp hf
    have hb := @List.find?_some (String × String) (fun kv => kv.1 == e) kv₀ g hkv
    rw [hkv]
    show some ((if kv₀.1 == e then (e, p) else kv₀).2) = some p
    rw [if_pos hb]
  · rw [if_neg hf]
    unfold ghostLookup
    rw [List.find?_append]
    have hnone : g.find? (fun kv => kv.1 == e) = none := by
      cases hg : g.find? (fun kv => kv.1 == e) with
      | none => rfl
      | some kv => exact absurd (by rw [hg]; rfl) hf
    rw [hnone]
    show (([(e, p)] : Ghost).find? (fun kv => kv.1 == e)).map _ = some p
    rw [@List.find?_cons_of_pos (String × String) (fun kv => kv.1 == e) (e, p) []
      (by simp)]
    rfl

/-- A set leaves the bindings of the other emails alone. -/
theorem ghostLookup_set_other (g : Ghost) (e p e' : String) (hne : e' ≠ e) :
    ghostLookup (ghostSet g e p) e' = ghostLookup g e' := by
  unfold ghostSet
  by_cases hf : (g.find? (fun kv => kv.1 == e)).isSome = true
  · rw [if_pos hf]
    unfold ghostLookup
    rw [List.find?_map]
    have hcomp : ((fun kv : String × String => kv.1 == e') ∘
        (fun kv => if kv.1 == e then (e, p) else kv))
        = (fun kv : String × String => kv.1 == e') := by
      funext kv
      show ((if kv.1 == e then (e, p) else kv).1 == e') = (kv.1 == e')
      by_cases hb : (kv.1 == e) = true
      · rw [if_pos hb]
        show (e == e') = (kv.1 == e')
        rw [eq_of_beq hb]
      · rw [if_neg hb]
    rw [hcomp]
    cases hg : g.find? (fun kv => kv.1 == e') with
    | none => rfl
    | some kv₀ =>
      have hb := @List.find?_some (String × String) (fun kv => kv.1 == e') kv₀ g hg
      have hne2 : (kv₀.1 == e) = false := by
        refine beq_eq_false_iff_ne.mpr ?_
        rw [eq_of_beq hb]
        exact hne
      show some ((if kv₀.1 == e then (e, p) else kv₀).2) = some kv₀.2
      rw [if_neg (by rw [hne2]; exact Bool.false_ne_true)]
  · rw [if_neg hf]
    unfold ghostLookup
    rw [List.find?_append]
    have hnil : ([(e, p)] : Ghost).find? (fun kv => kv.1 == e') = none := by
      refine @List.find?_cons_of_neg (String × String) (fun kv => kv.1 == e')
        (e, p) [] ?_
      show ¬ ((e == e') = true)
      rw [beq_eq_false_iff_ne.mpr (Ne.symm hne)]
      exact Bool.false_ne_true
    rw [hnil, Option.or_none]

/-- Setting a binding keeps the ghost keys duplicate-free. -/
theorem ghostSet_keys_nodup (g : Ghost) (e p : String)
    (hnd : (g.map (fun kv => kv.1)).Nodup) :
    ((ghostSet g e p).map (fun kv => kv.1)).Nodup := by
  unfold ghostSet
  by_cases hf : (g.find? (fun kv => kv.1 == e)).isSome = true
  · rw [if_pos hf, List.map_map]
    have hcomp : ((fun kv : String × String => kv.1) ∘
        (fun kv => if kv.1 == e then (e, p) else kv))
        = (fun kv : String × String => kv.1) := by
      funext kv
      show (if kv.1 == e then (e, p) else kv).1 = kv.1
      by_cases hb : (kv.1 == e) = true
      · rw [if_pos hb]
        exact (eq_of_beq hb).symm
      · rw [if_neg hb]
    rw [hcomp]
    exact hnd
  · rw [if_neg hf, List.map_append]
    rw [List.nodup_append]
    refine ⟨hnd, List.nodup_singleton _, ?_⟩
    have hnotin : e ∉ g.map (fun kv => kv.1) := by
      intro hmem
      obtain ⟨kv, hkv, hkv1⟩ := List.mem_map.mp hmem
      refine hf (List.find?_isSome.mpr ⟨kv, hkv, ?_⟩)
      rw [hkv1]
      simp
    exact List.disjoint_singleton.mpr hnotin

/-! ## State-side lemmas for the invariant -/

/-- With duplicate-free emails, the email lookup of a member finds it. -/
theorem find?_email_of_nodup (l : List User)
    (hnd : (l.map (fun u => u.email)).Nodup) (a : User) (ha : a ∈ l) :
    l.find? (fun x => x.email == a.email) = some a := by
  induction l with
  | nil => exact absurd ha (List.not_mem_nil a)
  | cons b bs ih =>
    rw [List.map_cons, List.nodup_cons] at hnd
    rcases List.mem_cons.mp ha with rfl | h1
    · exact @List.find?_cons_of_pos User (fun x => x.email == a.email) a bs (by simp)
    · by_cases hb : (b.email == a.email) = true
      · exfalso
        apply hnd.1
        rw [eq_of_beq hb]
        exact List.mem_map_of_mem (fun u => u.email) h1
      · rw [@List.find?_cons_of_neg User (fun x => x.email == a.email) b bs hb]
        exact ih hnd.2 h1

/-- Duplicate-free ids make the id a key: members with equal ids are equal. -/
theorem id_inj_of_nodup (l : List User)
    (hnd : (l.map (fun u => u.id)).Nodup) (a b : User)
    (ha : a ∈ l) (hb : b ∈ l) (hab : a.id = b.id) : a = b := by
  have h1 := find?_id_of_nodup l hnd a ha
  have h2 := find?_id_of_nodup l hnd b hb
  rw [hab] at h1
  have h3 : some a = some b := by
    rw [← h1, ← h2]
  exact Option.some.inj h3

/-- A projection invariant under the field update passes through the map. -/
theorem map_field_update_user {κ : Type} (s : AuthState) (i : Nat)
    (f : User → User) (proj : User → κ) (hf : ∀ u, proj (f u) = proj u) :
    (update_user s i f).users.map proj = s.users.map proj := by
  rw [update_user_users, List.map_map]
  refine List.map_congr_left ?_
  intro w hw
  show proj (if w.id == i then f w else w) = proj w
  by_cases hb : (w.id == i) = true
  · rw [if_pos hb]
    exact hf w
  · rw [if_neg hb]

/-- An update that keeps email and hashed_password keeps every email's
stored password view. -/
theorem sync_update_user (s : AuthState) (i : Nat) (f : User → User)
    (hfe : ∀ u, (f u).email = u.email)
    (hfp : ∀ u, (f u).hashed_password = u.hashed_password) (e : String) :
    ((update_user s i f).users.find? (fun u => u.email == e)).map
        (fun u => u.hashed_password.pw)
      = (s.users.find? (fun u => u.email == e)).map
        (fun u => u.hashed_password.pw) := by
  rw [find?_update_user s i f (fun u => u.email == e)
    (fun u => by show ((f u).email == e) = (u.email == e); rw [hfe u])]
  cases hff : s.users.find? (fun u => u.email == e) with
  | none => rfl
  | some w =>
    show some ((if w.id == i then f w else w).hashed_password.pw)
      = some (w.hashed_password.pw)
    by_cases hb : (w.id == i) = true
    · rw [if_pos hb, hfp w]
    · rw [if_neg hb]

/-- The service invariant: duplicate-free emails and ids, ids below the id
counter, duplicate-free ghost keys, and the ghost map mirroring each email's
stored password plaintext. -/
def GInv (sg : AuthState × Ghost) : Prop :=
  (sg.1.users.map (fun u => u.email)).Nodup
  ∧ (sg.1.users.map (fun u => u.id)).Nodup
  ∧ (∀ u ∈ sg.1.users, u.id < sg.1.nextId)
  ∧ (sg.2.map (fun kv => kv.1)).Nodup
  ∧ ∀ e, ghostLookup sg.2 e
      = (find_user_by_email sg.1 e).map (fun u => u.hashed_password.pw)

/-- An update through a function preserving email, id and hash keeps the
whole invariant. -/
theorem GInv_update_preserving (s : AuthState) (g : Ghost) (n i : Nat)
    (f : User → User)
    (hfe : ∀ u, (f u).email = u.email)
    (hfp : ∀ u, (f u).hashed_password = u.hashed_password)
    (hfi : ∀ u, (f u).id = u.id)
    (h : GInv (s, g)) :
    GInv (update_user { s with nonce := n } i f, g) := by
  obtain ⟨hem, hid, hlt, hgk, hsync⟩ := h
  refine ⟨?_, ?_, ?_, hgk, ?_⟩
  · rw [map_field_update_user _ _ _ _ hfe]
    exact hem
  · rw [map_field_update_user _ _ _ _ hfi]
    exact hid
  · intro u hu
    obtain ⟨w, hw, hwu⟩ := (mem_update_user _ _ _ u).mp hu
    have hwid : u.id = w.id := by
      rw [← hwu]
      by_cases hb : (w.id == i) = true
      · rw [if_pos hb]
        exact hfi w
      · rw [if_neg hb]
    show u.id < s.nextId
    rw [hwid]
    exact hlt w hw
  · intro e
    rw [show find_user_by_email (update_user { s with nonce := n } i f) e
        = (update_user { s with nonce := n } i f).users.find?
          (fun u => u.email == e) from rfl,
      sync_update_user _ _ _ hfe hfp e]
    exact hsync e

/-- Registration of a fresh email preserves the invariant: the new user is
appended with a fresh id and the ghost map learns its password. -/
theorem GInv_register_ok (s : AuthState) (g : Ghost) (e p : String)
    (hfe2 : s.users.find? (fun u => u.email == e) = none)
    (h : GInv (s, g)) :
    GInv (AuthState.mk
      (s.users ++ [User.mk s.nextId e (hash_password p s.nonce) none none])
      (s.nextId + 1) (s.nonce + 1), ghostSet g e p) := by
  obtain ⟨hem, hid, hlt, hgk, hsync⟩ := h
  have hnone := List.find?_eq_none.mp hfe2
  refine ⟨?_, ?_, ?_, ghostSet_keys_nodup g e p hgk, ?_⟩
  · show ((s.users ++ [User.mk s.nextId e (hash_password p s.nonce) none none]).map
      (fun u => u.email)).Nodup
    rw [List.map_append, List.nodup_append]
    refine ⟨hem, List.nodup_singleton _, ?_⟩
    have hnotin : e ∉ s.users.map (fun u => u.email) := by
      intro hmem
      obtain ⟨w, hw, hwe⟩ := List.mem_map.mp hmem
      exact hnone w hw (by rw [hwe]; simp)
    exact List.disjoint_singleton.mpr hnotin
  · show ((s.users ++ [User.mk s.nextId e (hash_password p s.nonce) none none]).map
      (fun u => u.id)).Nodup
    rw [List.map_append, List.nodup_append]
    refine ⟨hid, List.nodup_singleton _, ?_⟩
    have hnotin : s.nextId ∉ s.users.map (fun u => u.id) := by
      intro hmem
      obtain ⟨w, hw, hwe⟩ := List.mem_map.mp hmem
      exact absurd hwe (Nat.ne_of_lt (hlt w hw))
    exact List.disjoint_singleton.mpr hnotin
  · intro u hu
    show u.id < s.nextId + 1
    rcases List.mem_append.mp hu with h1 | h1
    · exact Nat.lt_succ_of_lt (hlt u h1)
    · rw [List.mem_singleton.mp h1]
      exact Nat.lt_succ_self _
  · intro e'
    by_cases heq : e' = e
    · subst heq
      rw [ghostLookup_set_self]
      have happ : (s.users ++ [User.mk s.nextId e' (hash_password p s.nonce)
          none none]).find? (fun u => u.email == e')
          = some (User.mk s.nextId e' (hash_password p s.nonce) none none) := by
        rw [List.find?_append, hfe2]
        show ([User.mk s.nextId e' (hash_password p s.nonce) none none].find?
          (fun u => u.email == e')) = _
        rw [@List.find?_cons_of_pos User (fun u => u.email == e')
          (User.mk s.nextId e' (hash_password p s.nonce) none none) [] (by simp)]
      show some p = ((s.users ++ [User.mk s.nextId e' (hash_password p s.nonce)
        none none]).find? (fun u => u.email == e')).map
        (fun u => u.hashed_password.pw)
      rw [happ]
      rfl
    · rw [ghostLookup_set_other g e p e' heq, hsync e']
      have hsingle : ([User.mk s.nextId e (hash_password p s.nonce) none
          none].find? (fun u => u.email == e')) = none := by
        refine @List.find?_cons_of_neg User (fun u => u.email == e')
          (User.mk s.nextId e (hash_password p s.nonce) none none) [] ?_
        show ¬ ((e == e') = true)
        rw [beq_eq_false_iff_ne.mpr (fun hc => heq hc.symm)]
        exact Bool.false_ne_true
      have happ : (s.users ++ [User.mk s.nextId e (hash_password p s.nonce)
          none none]).find? (fun u => u.email == e')
          = s.users.find? (fun u => u.email == e') := by
        rw [List.find?_append, hsingle]
        exact Option.or_none
      show (s.users.find? (fun u => u.email == e')).map
          (fun u => u.hashed_password.pw)
        = ((s.users ++ [User.mk s.nextId e (hash_password p s.nonce) none
          none]).find? (fun u => u.email == e')).map
          (fun u => u.hashed_password.pw)
      rw [happ]

/-- A successful password reset preserves the invariant: only the owner's
hash and reset token change, and the ghost map learns the new password at
the owner's email. -/
theorem GInv_update_pw (s : AuthState) (g : Ghost) (tok pw : String)
    (u₀ : User)
    (hfr2 : s.users.find? (fun u => u.reset_token == some tok) = some u₀)
    (h : GInv (s, g)) :
    GInv (update_user { s with nonce := s.nonce + 1 } u₀.id
      (fun v => { v with
        hashed_password := hash_password pw s.nonce,
        reset_token := none }), ghostSet g u₀.email pw) := by
  obtain ⟨hem, hid, hlt, hgk, hsync⟩ := h
  have hu₀mem : u₀ ∈ s.users := List.mem_of_find?_eq_some hfr2
  refine ⟨?_, ?_, ?_, ghostSet_keys_nodup g u₀.email pw hgk, ?_⟩
  · show ((update_user { s with nonce := s.nonce + 1 } u₀.id
      (fun v => { v with
        hashed_password := hash_password pw s.nonce,
        reset_token := none })).users.map (fun u => u.email)).Nodup
    rw [map_field_update_user _ u₀.id
      (fun v => { v with
        hashed_password := hash_password pw s.nonce,
        reset_token := none }) (fun u => u.email) (fun u => rfl)]
    exact hem
  · show ((update_user { s with nonce := s.nonce + 1 } u₀.id
      (fun v => { v with
        hashed_password := hash_password pw s.nonce,
        reset_token := none })).users.map (fun u => u.id)).Nodup
    rw [map_field_update_user _ u₀.id
      (fun v => { v with
        hashed_password := hash_password pw s.nonce,
        reset_token := none }) (fun u => u.id) (fun u => rfl)]
    exact hid
  · intro u hu
    obtain ⟨w, hw, hwu⟩ := (mem_update_user _ _ _ u).mp hu
    have hwid : u.id = w.id := by
      rw [← hwu]
      by_cases hb : (w.id == u₀.id) = true
      · rw [if_pos hb]
      · rw [if_neg hb]
    show u.id < s.nextId
    rw [hwid]
    exact hlt w hw
  · intro e'
    by_cases heq : e' = u₀.email
    · subst heq
      rw [ghostLookup_set_self]
      have hfind : (update_user { s with nonce := s.nonce + 1 } u₀.id
          (fun v => { v with
            hashed_password := hash_password pw s.nonce,
            reset_token := none })).users.find?
          (fun u => u.email == u₀.email)
          = some { u₀ with
            hashed_password := hash_password pw s.nonce,
            reset_token := none } := by
        rw [find?_update_user _ u₀.id
          (fun v => { v with
            hashed_password := hash_password pw s.nonce,
            reset_token := none })
          (fun u => u.email == u₀.email) (fun u => rfl),
          users_set_nonce, find?_email_of_nodup s.users hem u₀ hu₀mem]
        simp
      show some pw = ((update_user { s with nonce := s.nonce + 1 } u₀.id
        (fun v => { v with
          hashed_password := hash_password pw s.nonce,
          reset_token := none })).users.find?
        (fun u => u.email == u₀.email)).map (fun u => u.hashed_password.pw)
      rw [hfind]
      rfl
    · rw [ghostLookup_set_other g u₀.email pw e' heq, hsync e']
      show (s.users.find? (fun u => u.email == e')).map
          (fun u => u.hashed_password.pw)
        = ((update_user { s with nonce := s.nonce + 1 } u₀.id
          (fun v => { v with
            hashed_password := hash_password pw s.nonce,
            reset_token := none })).users.find?
          (fun u => u.email == e')).map (fun u => u.hashed_password.pw)
      rw [find?_update_user _ u₀.id
        (fun v => { v with
          hashed_password := hash_password pw s.nonce,
          reset_token := none })
        (fun u => u.email == e') (fun u => rfl), users_set_nonce]
      cases hw : s.users.find? (fun u => u.email == e') with
      | none => rfl
      | some w =>
        have hwe : w.email = e' := eq_of_beq
          (@List.find?_some User (fun u => u.email == e') w s.users hw)
        have hwmem : w ∈ s.users := List.mem_of_find?_eq_some hw
        by_cases hb : (w.id == u₀.id) = true
        · exfalso
          have hweq : w = u₀ :=
            id_inj_of_nodup s.users hid w u₀ hwmem hu₀mem (eq_of_beq hb)
          apply heq
          rw [← hwe, hweq]
        · show some (w.hashed_password.pw)
            = some ((if w.id == u₀.id then { w with
              hashed_password := hash_password pw s.nonce,
              reset_token := none } else w).hashed_password.pw)
          rw [if_neg hb]

/-- Every operation preserves the service invariant. -/
theorem stepG_inv (sg : AuthState × Ghost) (op : Op) (h : GInv sg) :
    GInv (stepG sg op) := by
  obtain ⟨s, g⟩ := sg
  obtain ⟨hem, hid, hlt, hgk, hsync⟩ := h
  cases op with
  | login e p => exact ⟨hem, hid, hlt, hgk, hsync⟩
  | getSession t => exact ⟨hem, hid, hlt, hgk, hsync⟩
  | register e p =>
    cases hfe : find_user_by_email s e with
    | some u₀ =>
      have hreg : register_user s e p = .error .userAlreadyExists := by
        simp [register_user, hfe]
      simp only [stepG]
      rw [hreg]
      exact ⟨hem, hid, hlt, hgk, hsync⟩
    | none =>
      have hfe2 : s.users.find? (fun u => u.email == e) = none := hfe
      have hreg : register_user s e p
          = .ok (User.mk s.nextId e (hash_password p s.nonce) none none,
            AuthState.mk (s.users ++
              [User.mk s.nextId e (hash_password p s.nonce) none none])
              (s.nextId + 1) (s.nonce + 1)) := by
        simp [register_user, hfe, add_user]
      simp only [stepG]
      rw [hreg]
      exact GInv_register_ok s g e p hfe2 ⟨hem, hid, hlt, hgk, hsync⟩
  | createSession e =>
    cases hfe : find_user_by_email s e with
    | none =>
      have hcr : create_session s e = (none, s) := by
        simp [create_session, hfe]
      simp only [stepG]
      rw [hcr]
      exact ⟨hem, hid, hlt, hgk, hsync⟩
    | some u₀ =>
      have hcr : create_session s e = (some (generate_uuid s.nonce),
          update_user { s with nonce := s.nonce + 1 } u₀.id
            (fun v => { v with session_id := some (generate_uuid s.nonce) })) := by
        simp [create_session, hfe]
      simp only [stepG]
      rw [hcr]
      exact GInv_update_preserving s g (s.nonce + 1) u₀.id _
        (fun u => rfl) (fun u => rfl) (fun u => rfl)
        ⟨hem, hid, hlt, hgk, hsync⟩
  | destroySession i =>
    cases i with
    | none =>
      simp only [stepG]
      exact ⟨hem, hid, hlt, hgk, hsync⟩
    | some j =>
      cases hfid : find_user_by_id s j with
      | none =>
        have hd : destroy_session s (some j) = s := by
          simp [destroy_session, hfid]
        simp only [stepG]
        rw [hd]
        exact ⟨hem, hid, hlt, hgk, hsync⟩
      | some u₀ =>
        simp only [stepG]
        rw [destroy_session_some_eq s j u₀ hfid]
        exact GInv_update_preserving s g s.nonce u₀.id _
          (fun u => rfl) (fun u => rfl) (fun u => rfl)
          ⟨hem, hid, hlt, hgk, hsync⟩
  | getReset e =>
    cases hfe : find_user_by_email s e with
    | none =>
      have hgr : get_reset_password_token s e = .error .userNotFound := by
        simp [get_reset_password_token, hfe]
      simp only [stepG]
      rw [hgr]
      exact ⟨hem, hid, hlt, hgk, hsync⟩
    | some u₀ =>
      have hgr : get_reset_password_token s e = .ok (generate_uuid s.nonce,
          update_user { s with nonce := s.nonce + 1 } u₀.id
            (fun v => { v with reset_token := some (generate_uuid s.nonce) })) := by
        simp [get_reset_password_token, hfe]
      simp only [stepG]
      rw [hgr]
      exact GInv_update_preserving s g (s.nonce + 1) u₀.id _
        (fun u => rfl) (fun u => rfl) (fun u => rfl)
        ⟨hem, hid, hlt, hgk, hsync⟩
  | updatePw t p =>
    cases t with
    | none =>
      simp only [stepG]
      exact ⟨hem, hid, hlt, hgk, hsync⟩
    | some tok =>
      cases p with
      | none =>
        simp only [stepG]
        exact ⟨hem, hid, hlt, hgk, hsync⟩
      | some pw =>
        cases hfr : find_user_by_reset_token s tok with
        | none =>
          have hup : update_password s (some tok) (some pw)
              = .error .invalidResetToken := by
            simp [update_password, hfr]
          simp only [stepG]
          rw [hup, hfr]
          exact ⟨hem, hid, hlt, hgk, hsync⟩
        | some u₀ =>
          have hfr2 : s.users.find? (fun u => u.reset_token == some tok)
              = some u₀ := hfr
          have hup : update_password s (some tok) (some pw)
              = .ok (update_user { s with nonce := s.nonce + 1 } u₀.id
                (fun v => { v with
                  hashed_password := hash_password pw s.nonce,
                  reset_token := none })) := by
            simp [update_password, hfr]
          simp only [stepG]
          rw [hup, hfr]
          exact GInv_update_pw s g tok pw u₀ hfr2 ⟨hem, hid, hlt, hgk, hsync⟩

/-- The invariant holds along every history. -/
theorem steps_inv (ops : List Op) (sg : AuthState × Ghost) (h : GInv sg) :
    GInv (steps sg ops) := by
  induction ops generalizing sg with
  | nil => exact h
  | cons op ops ih => exact ih (stepG sg op) (stepG_inv sg op h)

/-- The invariant holds for every run from the empty store. -/
theorem runAll_inv (ops : List Op) : GInv (runAll ops) :=
  steps_inv ops (initState, []) ⟨List.nodup_nil, List.nodup_nil,
    fun u hu => absurd hu (List.not_mem_nil u), List.nodup_nil, fun e => rfl⟩

/-! ## Claim C2: registration uniqueness -/

/-- When some stored user already has the email, registration fails. -/
theorem register_user_err_of_present (s : AuthState) (e q : String)
    (h : ∃ w ∈ s.users, w.email = e) :
    register_user s e q = .error .userAlreadyExists := by
  cases hfe : find_user_by_email s e with
  | some u => simp [register_user, hfe]
  | none =>
    obtain ⟨w, hw, hwe⟩ := h
    have hbe : (w.email == e) = true := by
      rw [hwe]
      simp
    exact absurd hbe (List.find?_eq_none.mp hfe w hw)

/-- An update through an email-preserving function keeps every present email
present. -/
theorem emailPresent_update (s : AuthState) (i : Nat) (f : User → User)
    (hfe : ∀ u, (f u).email = u.email) (e : String)
    (h : ∃ u ∈ s.users, u.email = e) :
    ∃ u ∈ (update_user s i f).users, u.email = e := by
  obtain ⟨u, hu, hue⟩ := h
  refine ⟨if u.id == i then f u else u,
    (mem_update_user s i f _).mpr ⟨u, hu, rfl⟩, ?_⟩
  by_cases hb : (u.id == i) = true
  · rw [if_pos hb, hfe u]
    exact hue
  · rw [if_neg hb]
    exact hue

/-- No operation ever removes an email from the store. -/
theorem emailPresent_step (sg : AuthState × Ghost) (op : Op) (e : String)
    (h : ∃ u ∈ sg.1.users, u.email = e) :
    ∃ u ∈ (stepG sg op).1.users, u.email = e := by
  obtain ⟨s, g⟩ := sg
  cases op with
  | login e' p => exact h
  | getSession t => exact h
  | register e' p =>
    cases hfe : find_user_by_email s e' with
    | some u₀ =>
      have hreg : register_user s e' p = .error .userAlreadyExists := by
        simp [register_user, hfe]
      simp only [stepG]
      rw [hreg]
      exact h
    | none =>
      have hreg : register_user s e' p
          = .ok (User.mk s.nextId e' (hash_password p s.nonce) none none,
            AuthState.mk (s.users ++
              [User.mk s.nextId e' (hash_password p s.nonce) none none])
              (s.nextId + 1) (s.nonce + 1)) := by
        simp [register_user, hfe, add_user]
      simp only [stepG]
      rw [hreg]
      obtain ⟨u, hu, hue⟩ := h
      exact ⟨u, List.mem_append.mpr (Or.inl hu), hue⟩
  | createSession e' =>
    cases hfe : find_user_by_email s e' with
    | none =>
      have hcr : create_session s e' = (none, s) := by
        simp [create_session, hfe]
      simp only [stepG]
      rw [hcr]
      exact h
    | some u₀ =>
      have hcr : create_session s e' = (some (generate_uuid s.nonce),
          update_user { s with nonce := s.nonce + 1 } u₀.id
            (fun v => { v with session_id := some (generate_uuid s.nonce) })) := by
        simp [create_session, hfe]
      simp only [stepG]
      rw [hcr]
      exact emailPresent_update { s with nonce := s.nonce + 1 } u₀.id
        (fun v => { v with session_id := some (generate_uuid s.nonce) })
        (fun u => rfl) e h
  | destroySession i =>
    cases i with
    | none =>
      simp only [stepG]
      exact h
    | some j =>
      cases hfid : find_user_by_id s j with
      | none =>
        have hd : destroy_session s (some j) = s := by
          simp [destroy_session, hfid]
        simp only [stepG]
        rw [hd]
        exact h
      | some u₀ =>
        simp only [stepG]
        rw [destroy_session_some_eq s j u₀ hfid]
        exact emailPresent_update s u₀.id
          (fun v => { v with session_id := none }) (fun u => rfl) e h
  | getReset e' =>
    cases hfe : find_user_by_email s e' with
    | none =>
      have hgr : get_reset_password_token s e' = .error .userNotFound := by
        simp [get_reset_password_token, hfe]
      simp only [stepG]
      rw [hgr]
      exact h
    | some u₀ =>
      have hgr : get_reset_password_token s e' = .ok (generate_uuid s.nonce,
          update_user { s with nonce := s.nonce + 1 } u₀.id
            (fun v => { v with reset_token := some (generate_uuid s.nonce) })) := by
        simp [get_reset_password_token, hfe]
      simp only [stepG]
      rw [hgr]
      exact emailPresent_update { s with nonce := s.nonce + 1 } u₀.id
        (fun v => { v with reset_token := some (generate_uuid s.nonce) })
        (fun u => rfl) e h
  | updatePw t p =>
    cases t with
    | none =>
      simp only [stepG]
      exact h
    | some tok =>
      cases p with
      | none =>
        simp only [stepG]
        exact h
      | some pw =>
        cases hfr : find_user_by_reset_token s tok with
        | none =>
          have hup : update_password s (some tok) (some pw)
              = .error .invalidResetToken := by
            simp [update_password, hfr]
          simp only [stepG]
          rw [hup, hfr]
          exact h
        | some u₀ =>
          have hup : update_password s (some tok) (some pw)
              = .ok (update_user { s with nonce := s.nonce + 1 } u₀.id
                (fun v => { v with
                  hashed_password := hash_password pw s.nonce,
                  reset_token := none })) := by
            simp [update_password, hfr]
          simp only [stepG]
          rw [hup, hfr]
          exact emailPresent_update { s with nonce := s.nonce + 1 } u₀.id
            (fun v => { v with
              hashed_password := hash_password pw s.nonce,
              reset_token := none }) (fun u => rfl) e h

/-- Emails stay present along whole histories. -/
theorem emailPresent_steps (more : List Op) (sg : AuthState × Ghost)
    (e : String) (h : ∃ u ∈ sg.1.users, u.email = e) :
    ∃ u ∈ (steps sg more).1.users, u.email = e := by
  induction more generalizing sg with
  | nil => exact h
  | cons op ops ih => exact ih (stepG sg op) (emailPresent_step sg op e h)

/-- C2: registration is unique per email — a taken email fails with
`UserAlreadyExists`; a fresh email hashes the password, appends the new user
and returns it (the user is then found by its email); and once a
registration for E has succeeded, a later register for E fails after any
further history of operations. -/
theorem register_user_unique (s : AuthState) (g : Ghost) (e p q : String)
    (u : User) (s₁ : AuthState) :
    ((∃ w ∈ s.users, w.email = e) →
      register_user s e p = .error .userAlreadyExists)
    ∧ (find_user_by_email s e = none →
        ∃ w s₂, register_user s e p = .ok (w, s₂) ∧ w.email = e
          ∧ w.hashed_password = hash_password p s.nonce
          ∧ find_user_by_email s₂ e = some w)
    ∧ (register_user s e p = .ok (u, s₁) →
        ∀ more : List Op,
          register_user (steps (s₁, g) more).1 e q
            = .error .userAlreadyExists) := by
  refine ⟨register_user_err_of_present s e p, ?_, ?_⟩
  · intro hfe
    have hfe2 : s.users.find? (fun w => w.email == e) = none := hfe
    refine ⟨User.mk s.nextId e (hash_password p s.nonce) none none,
      AuthState.mk (s.users ++
        [User.mk s.nextId e (hash_password p s.nonce) none none])
        (s.nextId + 1) (s.nonce + 1),
      by simp [register_user, hfe, add_user], rfl, rfl, ?_⟩
    show (s.users ++ [User.mk s.nextId e (hash_password p s.nonce) none
      none]).find? (fun w => w.email == e) = _
    rw [List.find?_append, hfe2]
    show ([User.mk s.nextId e (hash_password p s.nonce) none none].find?
      (fun w => w.email == e)) = _
    rw [@List.find?_cons_of_pos User (fun w => w.email == e)
      (User.mk s.nextId e (hash_password p s.nonce) none none) [] (by simp)]
  · intro hok more
    cases hfe : find_user_by_email s e with
    | some u₂ => exact absurd hok (by simp [register_user, hfe])
    | none =>
      have hreg : register_user s e p
          = .ok (User.mk s.nextId e (hash_password p s.nonce) none none,
            AuthState.mk (s.users ++
              [User.mk s.nextId e (hash_password p s.nonce) none none])
              (s.nextId + 1) (s.nonce + 1)) := by
        simp [register_user, hfe, add_user]
      rw [hreg] at hok
      obtain ⟨hu2, hs2⟩ := Prod.mk.injEq .. ▸ Except.ok.inj hok
      apply register_user_err_of_present
      apply emailPresent_steps
      rw [← hs2]
      exact ⟨User.mk s.nextId e (hash_password p s.nonce) none none,
        List.mem_append.mpr (Or.inr (List.mem_singleton.mpr rfl)), rfl⟩

/-- C2 witness: register, run another operation, then register again — the
second registration fails. -/
theorem register_user_unique_witness :
    register_user (steps (wState, []) [Op.createSession "a@x.com"]).1
      "a@x.com" "pw2" = .error .userAlreadyExists :=
  (register_user_unique initState [] "a@x.com" "pw" "pw2"
    (User.mk 1 "a@x.com" (hashpw "pw" 0) none none) wState).2.2 rfl
    [Op.createSession "a@x.com"]

/-! ## Claim C3: login correctness -/

/-- C3: along every history of operations, `valid_login(E, P)` is true
exactly when the ghost map — which records, per email, the password supplied
at that user's registration or at the most recent successful
`update_password` for that user — binds E to P; and an unknown email yields
`false` (a value, not an exception). -/
theorem valid_login_correct (ops : List Op) (e p : String) :
    (valid_login (runAll ops).1 e p = true
      ↔ ghostLookup (runAll ops).2 e = some p)
    ∧ (find_user_by_email (runAll ops).1 e = none →
        valid_login (runAll ops).1 e p = false) := by
  have hsync := (runAll_inv ops).2.2.2.2 e
  constructor
  · rw [hsync]
    cases hf : find_user_by_email (runAll ops).1 e with
    | none =>
      constructor
      · intro hc
        exact absurd hc (by simp [valid_login, hf])
      · intro hc
        exact absurd hc (by simp)
    | some u =>
      have hlogin : valid_login (runAll ops).1 e p
          = (p == u.hashed_password.pw) := by
        simp [valid_login, hf, checkpw]
      rw [hlogin]
      constructor
      · intro hc
        show some (u.hashed_password.pw) = some p
        rw [eq_of_beq hc]
      · intro hc
        have h2 : u.hashed_password.pw = p := Option.some.inj hc
        rw [h2]
        simp
  · intro hf
    simp [valid_login, hf]

/-- C3 witness: after one registration, the registered pair logs in and an
unknown email yields false. -/
theorem valid_login_correct_witness :
    valid_login (runAll [Op.register "a@x.com" "pw1"]).1 "a@x.com" "pw1" = true
    ∧ valid_login (runAll [Op.register "a@x.com" "pw1"]).1 "b@x.com" "zz"
        = false :=
  ⟨(valid_login_correct [Op.register "a@x.com" "pw1"] "a@x.com" "pw1").1.mpr
      (by decide),
   (valid_login_correct [Op.register "a@x.com" "pw1"] "b@x.com" "zz").2
      (by decide)⟩

/-! ## Claim C8: hashing discipline -/

/-- C8: after every history, every stored user's serialized hashed_password
is non-empty and differs from the plaintext that produced it (the hash
carries a header, the salt and a separator in front of the payload). -/
theorem hashed_password_discipline (ops : List Op) (u : User)
    (hu : u ∈ (runAll ops).1.users) :
    hashString u.hashed_password ≠ ""
    ∧ hashString u.hashed_password ≠ u.hashed_password.pw := by
  constructor
  · intro hc
    have hlen := congrArg String.length hc
    rw [hashString] at hlen
    rw [String.length_append, String.length_append, String.length_append] at hlen
    rw [show ("$2b$12$" : String).length = 7 from rfl,
      show ("$" : String).length = 1 from rfl,
      show ("" : String).length = 0 from rfl] at hlen
    omega
  · intro hc
    have hlen := congrArg String.length hc
    rw [hashString] at hlen
    rw [String.length_append, String.length_append, String.length_append] at hlen
    rw [show ("$2b$12$" : String).length = 7 from rfl,
      show ("$" : String).length = 1 from rfl] at hlen
    omega

/-- C8 witness: the stored hash of the single registered user. -/
theorem hashed_password_discipline_witness :
    hashString (User.mk 1 "a@x.com" (hashpw "pw" 0) none none).hashed_password
        ≠ ""
    ∧ hashString
        (User.mk 1 "a@x.com" (hashpw "pw" 0) none none).hashed_password
      ≠ (User.mk 1 "a@x.com" (hashpw "pw" 0) none none).hashed_password.pw :=
  hashed_password_discipline [Op.register "a@x.com" "pw"]
    (User.mk 1 "a@x.com" (hashpw "pw" 0) none none) (by decide)

set_option maxHeartbeats 1000000

/-! ## PII redaction: filter_datum of filtered_logger.py

`filter_datum` applies, for each field, the regex substitution
`re.sub(f"{field}=.*?{separator}", f"{field}={redaction}{separator}", message)`.
Python interpolates the field and the separator into the pattern text, so
their characters are regex-significant.  The embedding below implements the
`re` engine on the fragment those patterns live in: literal characters,
`.` (any character except a newline), and the quantifiers `*`, `+`, `?`
with their lazy variants, matched with Python's backtracking priorities
(lazy prefers the shortest extension, greedy the longest), scanning the
message left to right and substituting every non-overlapping match.
Constructs outside the fragment — classes, groups, anchors, alternation,
escapes, and a replacement template containing a backslash — make the model
return `none` rather than guess; on several of them (an unbalanced `[`,
`(` or `)`, a trailing backslash, a quantifier with nothing to repeat)
Python itself raises `re.error`. -/

/-- Is the first list a prefix of the second? -/
def leadsWith : List Char → List Char → Bool
  | [], _ => true
  | _ :: _, [] => false
  | a :: as, b :: bs => a == b && leadsWith as bs

/-- A regex atom of the modelled fragment: a literal character, or `.`,
which matches any character except a newline. -/
inductive RAtom where
  | lit (c : Char)
  | dot

/-- A regex token: a bare atom, or an atom under `*`, `+` or `?`, lazy
when the quantifier is followed by `?` in the pattern. -/
inductive RTok where
  | atom (a : RAtom)
  | star (lz : Bool) (a : RAtom)
  | plus (lz : Bool) (a : RAtom)
  | opt (lz : Bool) (a : RAtom)

/-- Does the atom match one character?  `.` matches anything but `\n`. -/
def matchAtom : RAtom → Char → Bool
  | .lit a, d => a == d
  | .dot, d => !(d == '\n')

/-- The quantifier characters of the pattern syntax. -/
def isQuantCh (ch : Char) : Bool :=
  ch == '*' || ch == '+' || ch == '?'

/-- Pattern characters that begin constructs outside the modelled
fragment: classes, groups, a brace repetition, anchors, alternation and
escapes. -/
def isUnmodeledCh (ch : Char) : Bool :=
  ch == '[' || ch == '(' || ch == ')' || ch == '\x7b' || ch == '^' ||
    ch == '$' || ch == '|' || ch == '\\'

/-- The regex metacharacters of Python's `re` — `. ^ $ * + ? [ ] ( ) | \`
and the two braces; a character that is none of these stands for itself
in a pattern. -/
def isMetaCh (ch : Char) : Bool :=
  isUnmodeledCh ch || isQuantCh ch || ch == '.' || ch == ']' || ch == '\x7d'

/-- Parse a pattern, one character per step, carrying the last parsed
token, to which a following quantifier still applies: `.` becomes the
any-character atom and other non-metacharacters literal atoms; `*`, `+`
and `?` quantify the pending atom, and a `?` right after a greedy
quantifier makes it lazy.  Outside the fragment — an unmodelled
metacharacter, or a quantifier with nothing to repeat or doubly applied
(on which Python raises `re.error`) — the parse is `none`. -/
def parseREAux : Option RTok → List Char → Option (List RTok)
  | pending, [] => some pending.toList
  | pending, ch :: rest =>
    if isUnmodeledCh ch then none
    else if ch == '*' then
      match pending with
      | some (RTok.atom a) => parseREAux (some (RTok.star false a)) rest
      | _ => none
    else if ch == '+' then
      match pending with
      | some (RTok.atom a) => parseREAux (some (RTok.plus false a)) rest
      | _ => none
    else if ch == '?' then
      match pending with
      | some (RTok.atom a) => parseREAux (some (RTok.opt false a)) rest
      | some (RTok.star false a) => parseREAux (some (RTok.star true a)) rest
      | some (RTok.plus false a) => parseREAux (some (RTok.plus true a)) rest
      | some (RTok.opt false a) => parseREAux (some (RTok.opt true a)) rest
      | _ => none
    else
      match pending with
      | some t =>
        (parseREAux (some (RTok.atom (if ch == '.' then RAtom.dot else RAtom.lit ch))) rest).map
          (fun ts => t :: ts)
      | none =>
        parseREAux (some (RTok.atom (if ch == '.' then RAtom.dot else RAtom.lit ch))) rest

/-- Parse a whole pattern string into tokens of the fragment. -/
def parseRE (p : List Char) : Option (List RTok) :=
  parseREAux none p

/-- Consume one character with atom `a`. -/
def consumeAtom (a : RAtom) : List Char → Option (List Char)
  | [] => none
  | ch :: s => if matchAtom a ch then some s else none

/-- Backtracking matcher at one position: the rest of the input after the
preferred match of the token list, `none` when there is no match.  The
alternatives are tried in the engine's priority order — a lazy quantifier
tries the continuation before consuming, a greedy one after — so the
first success is the match Python reports.  The fuel only bounds the
backtracking chain; any fuel above `input length + token count` is
enough. -/
def matchToks : Nat → List RTok → List Char → Option (List Char)
  | 0, _, _ => none
  | _ + 1, [], s => some s
  | fuel + 1, .atom a :: ts, s =>
    match consumeAtom a s with
    | some s₂ => matchToks fuel ts s₂
    | none => none
  | fuel + 1, .opt lz a :: ts, s =>
    if lz then
      match matchToks fuel ts s with
      | some r => some r
      | none =>
        match consumeAtom a s with
        | some s₂ => matchToks fuel ts s₂
        | none => none
    else
      match consumeAtom a s with
      | some s₂ =>
        match matchToks fuel ts s₂ with
        | some r => some r
        | none => matchToks fuel ts s
      | none => matchToks fuel ts s
  | fuel + 1, .star lz a :: ts, s =>
    if lz then
      match matchToks fuel ts s with
      | some r => some r
      | none =>
        match consumeAtom a s with
        | some s₂ => matchToks fuel (.star lz a :: ts) s₂
        | none => none
    else
      match consumeAtom a s with
      | some s₂ =>
        match matchToks fuel (.star lz a :: ts) s₂ with
        | some r => some r
        | none => matchToks fuel ts s
      | none => matchToks fuel ts s
  | fuel + 1, .plus lz a :: ts, s =>
    match consumeAtom a s with
    | some s₂ => matchToks fuel (.star lz a :: ts) s₂
    | none => none

/-- The matcher with canonical (always sufficient) fuel. -/
def mtks (ts : List RTok) (s : List Char) : Option (List Char) :=
  matchToks (s.length + ts.length + 1) ts s

/-- Literal tokens for a character list. -/
def litToks (l : List Char) : List RTok :=
  l.map (fun ch => RTok.atom (RAtom.lit ch))

/-- One global substitution pass: at each position substitute the
preferred match and resume after it; after an empty match Python emits
the replacement, keeps the current character and advances one position.
Fuelled for structural recursion; fuel `message length + 1` is enough. -/
def subRe (toks : List RTok) (repl : List Char) : Nat → List Char → List Char
  | 0, s => s
  | fuel + 1, s =>
    match mtks toks s with
    | some rest =>
      if rest.length = s.length then
        match s with
        | [] => repl
        | ch :: tl => repl ++ ch :: subRe toks repl fuel tl
      else repl ++ subRe toks repl fuel rest
    | none =>
      match s with
      | [] => []
      | ch :: tl => ch :: subRe toks repl fuel tl

/-- The substitution pass with enough fuel. -/
def subRun (toks : List RTok) (repl msg : List Char) : List Char :=
  subRe toks repl (msg.length + 1) msg

/-- Embeds `re.sub(pattern, repl, msg)` over the modelled fragment:
`none` when the pattern does not parse into the fragment, or when the
replacement template contains a backslash (which Python would interpret
as a group reference or an escape). -/
def re_sub (pattern repl msg : List Char) : Option (List Char) :=
  if '\\' ∈ repl then none
  else (parseRE pattern).map (fun toks => subRun toks repl msg)

/-- Embeds `filter_datum`: fold the per-field `re.sub` over the field
list, exactly as the source's for-loop reassigns `message`; the
interpolated pattern is `field ++ "=.*?" ++ separator` and the
replacement `field ++ "=" ++ redaction ++ separator`. -/
def filter_datum (fields : List String) (redaction message separator : String) :
    Option String :=
  (fields.foldlM
    (fun m f =>
      re_sub (f.toList ++ '=' :: '.' :: '*' :: '?' :: separator.toList)
        (f.toList ++ '=' :: (redaction.toList ++ separator.toList)) m)
    message.toList).map String.mk

/-- A delimited record at character level: `key=value<sep>` segments. -/
def mkRecL (ps : List (List Char × List Char)) (c : Char) : List Char :=
  (ps.map (fun kv => kv.1 ++ '=' :: kv.2 ++ [c])).flatten

/-- A delimited record built from string pairs. -/
def mkRecord (ps : List (String × String)) (c : Char) : String :=
  String.mk (mkRecL (ps.map (fun kv => (kv.1.toList, kv.2.toList))) c)

/-- C9 counterexample: a value containing a newline is not redacted — the
pattern's `.*?` cannot cross `\n`, so the occurrence `password=a\nb;` is
left intact instead of becoming `password=***;`.  A second refutation
comes from the regex reading of the delimiter: with delimiter `.` the
pattern's final `.` matches any character, so `name=bob.` becomes
`name=***.ob.` rather than `name=***.`. -/
theorem filter_datum_newline_counterexample :
    filter_datum ["password"] "***" "password=a\nb;" ";" = some "password=a\nb;"
    ∧ "password=a\nb;" ≠ "password=***;"
    ∧ "password=a\nb;" = mkRecord [("password", "a\nb")] ';'
    ∧ filter_datum ["name"] "***" "name=bob." "." = some "name=***.ob."
    ∧ "name=***.ob." ≠ "name=***." := by
  exact ⟨by decide, by decide, rfl, by decide, by decide⟩

/-- leadsWith is exactly prefix decomposition. -/
theorem leadsWith_iff (t s : List Char) :
    leadsWith t s = true ↔ ∃ r, s = t ++ r := by
  induction t generalizing s with
  | nil => simp [leadsWith]
  | cons a as ih =>
    cases s with
    | nil => simp [leadsWith]
    | cons b bs =>
      show (a == b && leadsWith as bs) = true ↔ _
      rw [Bool.and_eq_true, beq_iff_eq, ih]
      constructor
      · rintro ⟨rfl, r, rfl⟩
        exact ⟨r, rfl⟩
      · rintro ⟨r, hr⟩
        injection hr with h1 h2
        exact ⟨h1.symm, r, h2⟩

/-- A list is always a prefix of itself followed by anything. -/
theorem leadsWith_append_self (t r : List Char) :
    leadsWith t (t ++ r) = true :=
  (leadsWith_iff t (t ++ r)).mpr ⟨r, rfl⟩

/-- Consuming an atom shortens the input. -/
theorem consumeAtom_some_length (a : RAtom) (s s₂ : List Char)
    (h : consumeAtom a s = some s₂) : s₂.length < s.length := by
  cases s with
  | nil => exact Option.noConfusion h
  | cons ch tl =>
    have h2 : (if matchAtom a ch = true then some tl else none) = some s₂ := h
    by_cases hm : matchAtom a ch = true
    · rw [if_pos hm] at h2
      rw [← Option.some.inj h2]
      exact Nat.lt_succ_self _
    · rw [if_neg hm] at h2
      exact Option.noConfusion h2

/-- The rest returned by the matcher is no longer than the input. -/
theorem matchToks_some_length :
    ∀ (fuel : Nat) (ts : List RTok) (s r : List Char),
      matchToks fuel ts s = some r → r.length ≤ s.length := by
  intro fuel
  induction fuel with
  | zero => intro ts s r h; exact Option.noConfusion h
  | succ n ih =>
    intro ts s r h
    cases ts with
    | nil =>
      have hsr : s = r := Option.some.inj h
      rw [hsr]
    | cons t ts' =>
      cases t with
      | atom a =>
        rw [show matchToks (n + 1) (RTok.atom a :: ts') s
            = (match consumeAtom a s with
               | some s₂ => matchToks n ts' s₂
               | none => none) from rfl] at h
        cases hc : consumeAtom a s with
        | none => rw [hc] at h; exact Option.noConfusion h
        | some s₂ =>
          rw [hc] at h
          exact le_trans (ih ts' s₂ r h) (le_of_lt (consumeAtom_some_length a s s₂ hc))
      | opt lz a =>
        cases lz with
        | true =>
          rw [show matchToks (n + 1) (RTok.opt true a :: ts') s
              = (match matchToks n ts' s with
                 | some r₂ => some r₂
                 | none =>
                   match consumeAtom a s with
                   | some s₂ => matchToks n ts' s₂
                   | none => none) from rfl] at h
          cases hm : matchToks n ts' s with
          | some r₂ =>
            rw [hm] at h
            rw [← Option.some.inj h]
            exact ih ts' s r₂ hm
          | none =>
            rw [hm] at h
            cases hc : consumeAtom a s with
            | none => rw [hc] at h; exact Option.noConfusion h
            | some s₂ =>
              rw [hc] at h
              exact le_trans (ih ts' s₂ r h) (le_of_lt (consumeAtom_some_length a s s₂ hc))
        | false =>
          rw [show matchToks (n + 1) (RTok.opt false a :: ts') s
              = (match consumeAtom a s with
                 | some s₂ =>
                   match matchToks n ts' s₂ with
                   | some r₂ => some r₂
                   | none => matchToks n ts' s
                 | none => matchToks n ts' s) from rfl] at h
          cases hc : consumeAtom a s with
          | none =>
            rw [hc] at h
            exact ih ts' s r h
          | some s₂ =>
            rw [hc] at h
            have h2 : (match matchToks n ts' s₂ with
              | some r₂ => some r₂
              | none => matchToks n ts' s) = some r := h
            cases hm : matchToks n ts' s₂ with
            | some r₂ =>
              rw [hm] at h2
              have h3 : some r₂ = some r := h2
              rw [← Option.some.inj h3]
              exact le_trans (ih ts' s₂ r₂ hm) (le_of_lt (consumeAtom_some_length a s s₂ hc))
            | none =>
              rw [hm] at h2
              exact ih ts' s r h2
      | star lz a =>
        cases lz with
        | true =>
          rw [show matchToks (n + 1) (RTok.star true a :: ts') s
              = (match matchToks n ts' s with
                 | some r₂ => some r₂
                 | none =>
                   match consumeAtom a s with
                   | some s₂ => matchToks n (RTok.star true a :: ts') s₂
                   | none => none) from rfl] at h
          cases hm : matchToks n ts' s with
          | some r₂ =>
            rw [hm] at h
            rw [← Option.some.inj h]
            exact ih ts' s r₂ hm
          | none =>
            rw [hm] at h
            cases hc : consumeAtom a s with
            | none => rw [hc] at h; exact Option.noConfusion h
            | some s₂ =>
              rw [hc] at h
              exact le_trans (ih _ s₂ r h) (le_of_lt (consumeAtom_some_length a s s₂ hc))
        | false =>
          rw [show matchToks (n + 1) (RTok.star false a :: ts') s
              = (match consumeAtom a s with
                 | some s₂ =>
                   match matchToks n (RTok.star false a :: ts') s₂ with
                   | some r₂ => some r₂
                   | none => matchToks n ts' s
                 | none => matchToks n ts' s) from rfl] at h
          cases hc : consumeAtom a s with
          | none =>
            rw [hc] at h
            exact ih ts' s r h
          | some s₂ =>
            rw [hc] at h
            have h2 : (match matchToks n (RTok.star false a :: ts') s₂ with
              | some r₂ => some r₂
              | none => matchToks n ts' s) = some r := h
            cases hm : matchToks n (RTok.star false a :: ts') s₂ with
            | some r₂ =>
              rw [hm] at h2
              have h3 : some r₂ = some r := h2
              rw [← Option.some.inj h3]
              exact le_trans (ih _ s₂ r₂ hm) (le_of_lt (consumeAtom_some_length a s s₂ hc))
            | none =>
              rw [hm] at h2
              exact ih ts' s r h2
      | plus lz a =>
        rw [show matchToks (n + 1) (RTok.plus lz a :: ts') s
            = (match consumeAtom a s with
               | some s₂ => matchToks n (RTok.star lz a :: ts') s₂
               | none => none) from rfl] at h
        cases hc : consumeAtom a s with
        | none => rw [hc] at h; exact Option.noConfusion h
        | some s₂ =>
          rw [hc] at h
          exact le_trans (ih _ s₂ r h) (le_of_lt (consumeAtom_some_length a s s₂ hc))

/-- Any two sufficient fuels make the matcher agree. -/
theorem matchToks_irrel :
    ∀ (f₁ f₂ : Nat) (ts : List RTok) (s : List Char),
      s.length + ts.length < f₁ → s.length + ts.length < f₂ →
      matchToks f₁ ts s = matchToks f₂ ts s := by
  intro f₁
  induction f₁ with
  | zero => intro f₂ ts s h₁ _; exact absurd h₁ (Nat.not_lt_zero _)
  | succ n ih =>
    intro f₂ ts s h₁ h₂
    cases f₂ with
    | zero => exact absurd h₂ (Nat.not_lt_zero _)
    | succ m =>
      cases ts with
      | nil => rfl
      | cons t ts' =>
        rw [List.length_cons] at h₁ h₂
        cases t with
        | atom a =>
          rw [show matchToks (n + 1) (RTok.atom a :: ts') s
              = (match consumeAtom a s with
                 | some s₂ => matchToks n ts' s₂
                 | none => none) from rfl,
            show matchToks (m + 1) (RTok.atom a :: ts') s
              = (match consumeAtom a s with
                 | some s₂ => matchToks m ts' s₂
                 | none => none) from rfl]
          cases hc : consumeAtom a s with
          | none => rfl
          | some s₂ =>
            have hl := consumeAtom_some_length a s s₂ hc
            exact ih m ts' s₂ (by omega) (by omega)
        | opt lz a =>
          cases lz with
          | true =>
            rw [show matchToks (n + 1) (RTok.opt true a :: ts') s
                = (match matchToks n ts' s with
                   | some r₂ => some r₂
                   | none =>
                     match consumeAtom a s with
                     | some s₂ => matchToks n ts' s₂
                     | none => none) from rfl,
              show matchToks (m + 1) (RTok.opt true a :: ts') s
                = (match matchToks m ts' s with
                   | some r₂ => some r₂
                   | none =>
                     match consumeAtom a s with
                     | some s₂ => matchToks m ts' s₂
                     | none => none) from rfl]
            rw [ih m ts' s (by omega) (by omega)]
            cases hm : matchToks m ts' s with
            | some r₂ => rfl
            | none =>
              cases hc : consumeAtom a s with
              | none => rfl
              | some s₂ =>
                have hl := consumeAtom_some_length a s s₂ hc
                exact ih m ts' s₂ (by omega) (by omega)
          | false =>
            rw [show matchToks (n + 1) (RTok.opt false a :: ts') s
                = (match consumeAtom a s with
                   | some s₂ =>
                     match matchToks n ts' s₂ with
                     | some r₂ => some r₂
                     | none => matchToks n ts' s
                   | none => matchToks n ts' s) from rfl,
              show matchToks (m + 1) (RTok.opt false a :: ts') s
                = (match consumeAtom a s with
                   | some s₂ =>
                     match matchToks m ts' s₂ with
                     | some r₂ => some r₂
                     | none => matchToks m ts' s
                   | none => matchToks m ts' s) from rfl]
            cases hc : consumeAtom a s with
            | none => exact ih m ts' s (by omega) (by omega)
            | some s₂ =>
              have hl := consumeAtom_some_length a s s₂ hc
              show (match matchToks n ts' s₂ with
                | some r₂ => some r₂
                | none => matchToks n ts' s)
                = (match matchToks m ts' s₂ with
                | some r₂ => some r₂
                | none => matchToks m ts' s)
              rw [ih m ts' s₂ (by omega) (by omega)]
              cases hm : matchToks m ts' s₂ with
              | some r₂ => rfl
              | none => exact ih m ts' s (by omega) (by omega)
        | star lz a =>
          cases lz with
          | true =>
            rw [show matchToks (n + 1) (RTok.star true a :: ts') s
                = (match matchToks n ts' s with
                   | some r₂ => some r₂
                   | none =>
                     match consumeAtom a s with
                     | some s₂ => matchToks n (RTok.star true a :: ts') s₂
                     | none => none) from rfl,
              show matchToks (m + 1) (RTok.star true a :: ts') s
                = (match matchToks m ts' s with
                   | some r₂ => some r₂
                   | none =>
                     match consumeAtom a s with
                     | some s₂ => matchToks m (RTok.star true a :: ts') s₂
                     | none => none) from rfl]
            rw [ih m ts' s (by omega) (by omega)]
            cases hm : matchToks m ts' s with
            | some r₂ => rfl
            | none =>
              cases hc : consumeAtom a s with
              | none => rfl
              | some s₂ =>
                have hl := consumeAtom_some_length a s s₂ hc
                exact ih m (RTok.star true a :: ts') s₂
                  (by rw [List.length_cons]; omega)
                  (by rw [List.length_cons]; omega)
          | false =>
            rw [show matchToks (n + 1) (RTok.star false a :: ts') s
                = (match consumeAtom a s with
                   | some s₂ =>
                     match matchToks n (RTok.star false a :: ts') s₂ with
                     | some r₂ => some r₂
                     | none => matchToks n ts' s
                   | none => matchToks n ts' s) from rfl,
              show matchToks (m + 1) (RTok.star false a :: ts') s
                = (match consumeAtom a s with
                   | some s₂ =>
                     match matchToks m (RTok.star false a :: ts') s₂ with
                     | some r₂ => some r₂
                     | none => matchToks m ts' s
                   | none => matchToks m ts' s) from rfl]
            cases hc : consumeAtom a s with
            | none => exact ih m ts' s (by omega) (by omega)
            | some s₂ =>
              have hl := consumeAtom_some_length a s s₂ hc
              show (match matchToks n (RTok.star false a :: ts') s₂ with
                | some r₂ => some r₂
                | none => matchToks n ts' s)
                = (match matchToks m (RTok.star false a :: ts') s₂ with
                | some r₂ => some r₂
                | none => matchToks m ts' s)
              rw [ih m (RTok.star false a :: ts') s₂
                (by rw [List.length_cons]; omega)
                (by rw [List.length_cons]; omega)]
              cases hm : matchToks m (RTok.star false a :: ts') s₂ with
              | some r₂ => rfl
              | none => exact ih m ts' s (by omega) (by omega)
        | plus lz a =>
          rw [show matchToks (n + 1) (RTok.plus lz a :: ts') s
              = (match consumeAtom a s with
                 | some s₂ => matchToks n (RTok.star lz a :: ts') s₂
                 | none => none) from rfl,
            show matchToks (m + 1) (RTok.plus lz a :: ts') s
              = (match consumeAtom a s with
                 | some s₂ => matchToks m (RTok.star lz a :: ts') s₂
                 | none => none) from rfl]
          cases hc : consumeAtom a s with
          | none => rfl
          | some s₂ =>
            have hl := consumeAtom_some_length a s s₂ hc
            exact ih m (RTok.star lz a :: ts') s₂
              (by rw [List.length_cons]; omega)
              (by rw [List.length_cons]; omega)

/-- The canonical matcher never lengthens the input. -/
theorem mtks_some_length (ts : List RTok) (s r : List Char)
    (h : mtks ts s = some r) : r.length ≤ s.length :=
  matchToks_some_length _ ts s r h

/-- The canonical matcher on the empty token list. -/
theorem mtks_nil (s : List Char) : mtks [] s = some s := rfl

/-- Unfolding the canonical matcher at a bare atom. -/
theorem mtks_atom_eq (a : RAtom) (ts : List RTok) (s : List Char) :
    mtks (RTok.atom a :: ts) s
      = match consumeAtom a s with
        | some s₂ => mtks ts s₂
        | none => none := by
  rw [show mtks (RTok.atom a :: ts) s
      = (match consumeAtom a s with
         | some s₂ => matchToks (s.length + (ts.length + 1)) ts s₂
         | none => none) from rfl]
  cases hc : consumeAtom a s with
  | none => rfl
  | some s₂ =>
    have hl := consumeAtom_some_length a s s₂ hc
    show matchToks (s.length + (ts.length + 1)) ts s₂ = mtks ts s₂
    exact matchToks_irrel _ _ ts s₂ (by omega) (by omega)

/-- Unfolding the canonical matcher at a lazy star. -/
theorem mtks_star_lazy_eq (a : RAtom) (ts : List RTok) (s : List Char) :
    mtks (RTok.star true a :: ts) s
      = match mtks ts s with
        | some r => some r
        | none =>
          match consumeAtom a s with
          | some s₂ => mtks (RTok.star true a :: ts) s₂
          | none => none := by
  rw [show mtks (RTok.star true a :: ts) s
      = (match matchToks (s.length + (ts.length + 1)) ts s with
         | some r => some r
         | none =>
           match consumeAtom a s with
           | some s₂ => matchToks (s.length + (ts.length + 1)) (RTok.star true a :: ts) s₂
           | none => none) from rfl]
  rw [show matchToks (s.length + (ts.length + 1)) ts s = mtks ts s from
    matchToks_irrel _ _ ts s (by omega) (by omega)]
  cases hm : mtks ts s with
  | some r => rfl
  | none =>
    cases hc : consumeAtom a s with
    | none => rfl
    | some s₂ =>
      have hl := consumeAtom_some_length a s s₂ hc
      show matchToks (s.length + (ts.length + 1)) (RTok.star true a :: ts) s₂
        = mtks (RTok.star true a :: ts) s₂
      exact matchToks_irrel _ _ (RTok.star true a :: ts) s₂
        (by rw [List.length_cons]; omega)
        (by rw [List.length_cons]; omega)

/-- Matching a run of literal tokens is exactly a prefix test. -/
theorem mtks_litToks (l : List Char) (ts : List RTok) (s : List Char) :
    mtks (litToks l ++ ts) s
      = if leadsWith l s then mtks ts (s.drop l.length) else none := by
  induction l generalizing s with
  | nil => rfl
  | cons ch l' ih =>
    show mtks (RTok.atom (RAtom.lit ch) :: (litToks l' ++ ts)) s = _
    rw [mtks_atom_eq]
    cases s with
    | nil => rfl
    | cons d s₂ =>
      cases hcd : ch == d with
      | false =>
        have h1 : consumeAtom (RAtom.lit ch) (d :: s₂) = none := by
          simp [consumeAtom, matchAtom, hcd]
        have h2 : leadsWith (ch :: l') (d :: s₂) = false := by
          simp [leadsWith, hcd]
        rw [h1, h2]
        rfl
      | true =>
        have h1 : consumeAtom (RAtom.lit ch) (d :: s₂) = some s₂ := by
          simp [consumeAtom, matchAtom, hcd]
        have h2 : leadsWith (ch :: l') (d :: s₂) = leadsWith l' s₂ := by
          simp [leadsWith, hcd]
        rw [h1, h2]
        show mtks (litToks l' ++ ts) s₂
          = if leadsWith l' s₂ then mtks ts ((d :: s₂).drop (ch :: l').length) else none
        rw [ih s₂]
        simp [List.length_cons, List.drop_succ_cons]

/-- The lazy `.*?` followed by a literal separator consumes the shortest
separator-free, newline-free value and stops after the separator. -/
theorem mtks_lazy_dot_sep (c : Char) (v rest : List Char)
    (hcv : c ∉ v) (hnl : '\n' ∉ v) :
    mtks [RTok.star true RAtom.dot, RTok.atom (RAtom.lit c)] (v ++ c :: rest)
      = some rest := by
  induction v with
  | nil =>
    have h1 : mtks [RTok.atom (RAtom.lit c)] (c :: rest) = some rest := by
      rw [mtks_atom_eq]
      simp [consumeAtom, matchAtom, mtks_nil]
    show mtks [RTok.star true RAtom.dot, RTok.atom (RAtom.lit c)] (c :: rest) = some rest
    rw [mtks_star_lazy_eq, h1]
  | cons d v₂ ih =>
    have hcd : (c == d) = false := by
      refine beq_eq_false_iff_ne.mpr ?_
      intro he
      exact hcv (by rw [he]; exact List.mem_cons_self d v₂)
    have hdn : (d == '\n') = false := by
      refine beq_eq_false_iff_ne.mpr ?_
      intro he
      exact hnl (by rw [← he]; exact List.mem_cons_self d v₂)
    have h1 : mtks [RTok.atom (RAtom.lit c)] (d :: (v₂ ++ c :: rest)) = none := by
      rw [mtks_atom_eq]
      simp [consumeAtom, matchAtom, hcd]
    have h2 : consumeAtom RAtom.dot (d :: (v₂ ++ c :: rest)) = some (v₂ ++ c :: rest) := by
      simp [consumeAtom, matchAtom, hdn]
    show mtks [RTok.star true RAtom.dot, RTok.atom (RAtom.lit c)]
        (d :: (v₂ ++ c :: rest)) = some rest
    rw [mtks_star_lazy_eq, h1]
    show (match consumeAtom RAtom.dot (d :: (v₂ ++ c :: rest)) with
      | some s₂ => mtks [RTok.star true RAtom.dot, RTok.atom (RAtom.lit c)] s₂
      | none => none) = some rest
    rw [h2]
    show mtks [RTok.star true RAtom.dot, RTok.atom (RAtom.lit c)] (v₂ ++ c :: rest)
      = some rest
    exact ih (fun hm => hcv (List.mem_cons_of_mem d hm))
      (fun hm => hnl (List.mem_cons_of_mem d hm))

/-- Any two sufficient fuels make the substitution pass agree. -/
theorem subRe_irrel (toks : List RTok) (repl : List Char) :
    ∀ f₁ f₂ s, s.length < f₁ → s.length < f₂ →
      subRe toks repl f₁ s = subRe toks repl f₂ s := by
  intro f₁
  induction f₁ with
  | zero => intro f₂ s h₁ _; exact absurd h₁ (Nat.not_lt_zero _)
  | succ n ih =>
    intro f₂ s h₁ h₂
    cases f₂ with
    | zero => exact absurd h₂ (Nat.not_lt_zero _)
    | succ m =>
      cases s with
      | nil =>
        rw [show subRe toks repl (n + 1) ([] : List Char)
            = (match mtks toks [] with
               | some rest =>
                 if rest.length = ([] : List Char).length then repl
                 else repl ++ subRe toks repl n rest
               | none => []) from rfl,
          show subRe toks repl (m + 1) ([] : List Char)
            = (match mtks toks [] with
               | some rest =>
                 if rest.length = ([] : List Char).length then repl
                 else repl ++ subRe toks repl m rest
               | none => []) from rfl]
        cases hm : mtks toks [] with
        | none => rfl
        | some rest =>
          have hle := mtks_some_length toks [] rest hm
          have hr0 : rest.length = ([] : List Char).length := Nat.le_zero.mp hle
          show (if rest.length = ([] : List Char).length then repl
            else repl ++ subRe toks repl n rest)
            = (if rest.length = ([] : List Char).length then repl
            else repl ++ subRe toks repl m rest)
          rw [if_pos hr0, if_pos hr0]
      | cons ch tl =>
        rw [List.length_cons] at h₁ h₂
        rw [show subRe toks repl (n + 1) (ch :: tl)
            = (match mtks toks (ch :: tl) with
               | some rest =>
                 if rest.length = (ch :: tl).length then
                   repl ++ ch :: subRe toks repl n tl
                 else repl ++ subRe toks repl n rest
               | none => ch :: subRe toks repl n tl) from rfl,
          show subRe toks repl (m + 1) (ch :: tl)
            = (match mtks toks (ch :: tl) with
               | some rest =>
                 if rest.length = (ch :: tl).length then
                   repl ++ ch :: subRe toks repl m tl
                 else repl ++ subRe toks repl m rest
               | none => ch :: subRe toks repl m tl) from rfl]
        cases hm : mtks toks (ch :: tl) with
        | none =>
          show ch :: subRe toks repl n tl = ch :: subRe toks repl m tl
          rw [ih m tl (by omega) (by omega)]
        | some rest =>
          show (if rest.length = (ch :: tl).length then
              repl ++ ch :: subRe toks repl n tl
            else repl ++ subRe toks repl n rest)
            = (if rest.length = (ch :: tl).length then
              repl ++ ch :: subRe toks repl m tl
            else repl ++ subRe toks repl m rest)
          by_cases hl : rest.length = (ch :: tl).length
          · rw [if_pos hl, if_pos hl]
            rw [ih m tl (by omega) (by omega)]
          · rw [if_neg hl, if_neg hl]
            have hle := mtks_some_length toks (ch :: tl) rest hm
            have hlt : rest.length < (ch :: tl).length := lt_of_le_of_ne hle hl
            rw [List.length_cons] at hlt
            rw [ih m rest (by omega) (by omega)]

/-- Substitution on the empty message with no match at the end. -/
theorem subRun_nil (toks : List RTok) (repl : List Char)
    (h : mtks toks [] = none) : subRun toks repl [] = [] := by
  show subRe toks repl (0 + 1) [] = []
  rw [show subRe toks repl (0 + 1) ([] : List Char)
      = (match mtks toks [] with
         | some rest =>
           if rest.length = ([] : List Char).length then repl
           else repl ++ subRe toks repl 0 rest
         | none => []) from rfl]
  rw [h]

/-- Substitution step: no match at this position. -/
theorem subRun_cons_no (toks : List RTok) (repl : List Char) (ch : Char)
    (tl : List Char) (h : mtks toks (ch :: tl) = none) :
    subRun toks repl (ch :: tl) = ch :: subRun toks repl tl := by
  show subRe toks repl (tl.length + 1 + 1) (ch :: tl)
    = ch :: subRe toks repl (tl.length + 1) tl
  rw [show subRe toks repl (tl.length + 1 + 1) (ch :: tl)
      = (match mtks toks (ch :: tl) with
         | some rest =>
           if rest.length = (ch :: tl).length then
             repl ++ ch :: subRe toks repl (tl.length + 1) tl
           else repl ++ subRe toks repl (tl.length + 1) rest
         | none => ch :: subRe toks repl (tl.length + 1) tl) from rfl]
  rw [h]

/-- Substitution step: a shortening match at this position is replaced and
scanning resumes after it. -/
theorem subRun_match (toks : List RTok) (repl s rest : List Char)
    (h : mtks toks s = some rest) (hlt : rest.length < s.length) :
    subRun toks repl s = repl ++ subRun toks repl rest := by
  cases s with
  | nil => exact absurd hlt (Nat.not_lt_zero _)
  | cons ch tl =>
    show subRe toks repl (tl.length + 1 + 1) (ch :: tl)
      = repl ++ subRe toks repl (rest.length + 1) rest
    rw [show subRe toks repl (tl.length + 1 + 1) (ch :: tl)
        = (match mtks toks (ch :: tl) with
           | some rest₂ =>
             if rest₂.length = (ch :: tl).length then
               repl ++ ch :: subRe toks repl (tl.length + 1) tl
             else repl ++ subRe toks repl (tl.length + 1) rest₂
           | none => ch :: subRe toks repl (tl.length + 1) tl) from rfl]
    rw [h]
    show (if rest.length = (ch :: tl).length then
        repl ++ ch :: subRe toks repl (tl.length + 1) tl
      else repl ++ subRe toks repl (tl.length + 1) rest)
      = repl ++ subRe toks repl (rest.length + 1) rest
    rw [if_neg (Nat.ne_of_lt hlt)]
    refine congrArg (repl ++ ·) ?_
    refine subRe_irrel toks repl (tl.length + 1) (rest.length + 1) rest ?_ (Nat.lt_succ_self _)
    rw [List.length_cons] at hlt
    omega

/-- Substitution pass-through: a stretch none of whose suffixes starts a
match is copied unchanged. -/
theorem subRun_append_pass (tag : List Char) (ts : List RTok)
    (repl pre ext : List Char)
    (hpre : ∀ b, b ≠ [] → (∃ a, pre = a ++ b) →
      leadsWith tag (b ++ ext) = false) :
    subRun (litToks tag ++ ts) repl (pre ++ ext)
      = pre ++ subRun (litToks tag ++ ts) repl ext := by
  induction pre with
  | nil => rfl
  | cons ch tl ih =>
    have h0 : leadsWith tag (ch :: (tl ++ ext)) = false :=
      hpre (ch :: tl) (List.cons_ne_nil ch tl) ⟨[], rfl⟩
    have hnone : mtks (litToks tag ++ ts) (ch :: (tl ++ ext)) = none := by
      rw [mtks_litToks, h0]
      rfl
    show subRun (litToks tag ++ ts) repl (ch :: (tl ++ ext)) = _
    rw [subRun_cons_no _ _ _ _ hnone]
    rw [ih (fun b hb hab => hpre b hb (by
      obtain ⟨a, ha⟩ := hab
      exact ⟨ch :: a, by rw [ha]; rfl⟩))]
    rfl

/-- Does `k` end in `f`?  Computable suffix test. -/
def endsIn (f k : List Char) : Bool :=
  leadsWith f.reverse k.reverse

/-- A negative suffix test rules out the split `k = a ++ f`. -/
theorem endsIn_false_no_split (f k : List Char) (h : endsIn f k = false) :
    ¬ ∃ a, k = a ++ f := by
  rintro ⟨a, rfl⟩
  unfold endsIn at h
  rw [List.reverse_append, leadsWith_append_self] at h
  exact Bool.noConfusion h

/-- Splitting at a unique separator: with '='-free sides, the decomposition
of `k ++ '=' :: v` is unique. -/
theorem eq_sep_split (k v q w : List Char)
    (hk : '=' ∉ k) (hq : '=' ∉ q)
    (h : k ++ '=' :: v = q ++ '=' :: w) : k = q ∧ v = w := by
  induction k generalizing q with
  | nil =>
    cases q with
    | nil =>
      injection h with h1 h2
      exact ⟨rfl, h2⟩
    | cons d q₂ =>
      injection h with h1 h2
      exfalso
      apply hq
      rw [h1]
      exact List.mem_cons_self _ _
  | cons a k₂ ih =>
    cases q with
    | nil =>
      injection h with h1 h2
      exfalso
      apply hk
      rw [← h1]
      exact List.mem_cons_self _ _
    | cons d q₂ =>
      injection h with h1 h2
      obtain ⟨hkq, hvw⟩ := ih q₂ (fun hm => hk (List.mem_cons_of_mem a hm))
        (fun hm => hq (List.mem_cons_of_mem d hm)) h2
      exact ⟨by rw [h1, hkq], hvw⟩

/-- If a clean `key=value` core decomposes around the tag `f=`, then the key
ends in `f`. -/
theorem clean_core_split (k v a f w : List Char)
    (hek : '=' ∉ k) (hev : '=' ∉ v) (hef : '=' ∉ f)
    (h : k ++ '=' :: v = a ++ (f ++ '=' :: w)) : ∃ a₂, k = a₂ ++ f := by
  have hk0 : List.count '=' k = 0 := List.count_eq_zero.mpr hek
  have hv0 : List.count '=' v = 0 := List.count_eq_zero.mpr hev
  have hf0 : List.count '=' f = 0 := List.count_eq_zero.mpr hef
  have hcnt := congrArg (List.count '=') h
  simp only [List.count_append, List.count_cons_self] at hcnt
  have hea : '=' ∉ a := by
    intro hm
    have hane : List.count '=' a ≠ 0 := fun h0 => (List.count_eq_zero.mp h0) hm
    rw [hk0, hv0, hf0] at hcnt
    omega
  obtain ⟨hkaf, hvw⟩ := eq_sep_split k v (a ++ f) w hek (by
    intro hm
    rcases List.mem_append.mp hm with hm | hm
    · exact hea hm
    · exact hef hm) (by rw [h, List.append_assoc])
  exact ⟨a, hkaf⟩

/-- Inside a clean `key=value<sep>` segment whose key does not end in the
field, no suffix position starts a `field=` match. -/
theorem no_tag_in_clean_segment (f k v ext : List Char) (c : Char)
    (hce : c ≠ '=') (hcf : c ∉ f) (hef : '=' ∉ f)
    (hck : c ∉ k) (hek : '=' ∉ k)
    (hcv : c ∉ v) (hev : '=' ∉ v)
    (hsuf : ¬ ∃ a, k = a ++ f)
    (b : List Char) (hb : b ≠ [])
    (hbs : ∃ a, k ++ '=' :: v ++ [c] = a ++ b) :
    leadsWith (f ++ ['=']) (b ++ ext) = false := by
  cases hx : leadsWith (f ++ ['=']) (b ++ ext) with
  | false => rfl
  | true =>
    exfalso
    obtain ⟨a, ha⟩ := hbs
    have hseg : (k ++ '=' :: v) ++ [c] = a ++ b := by
      rw [← ha]
    rcases List.eq_nil_or_concat b with rfl | ⟨b₂, x, hbx⟩
    · exact hb rfl
    · rw [hbx] at hseg hx
      rw [List.concat_eq_append] at hseg hx
      have hseg2 : (k ++ '=' :: v) ++ [c] = (a ++ b₂) ++ [x] := by
        rw [hseg, List.append_assoc]
      obtain ⟨hcore, hxc⟩ := List.append_inj' hseg2 rfl
      have hxeq : c = x := by simpa using hxc
      subst hxeq
      rw [List.append_assoc] at hx
      obtain ⟨r, hr⟩ := (leadsWith_iff _ _).mp hx
      rcases List.append_eq_append_iff.mp hr with ⟨w, hw1, hw2⟩ | ⟨w, hw1, hw2⟩
      · cases w with
        | nil =>
          rw [List.append_nil] at hw1
          refine hsuf (clean_core_split k v a f [] hek hev hef ?_)
          rw [hcore, ← hw1]
        | cons w₀ w₂ =>
          injection hw2 with hcw hext
          have hcmem : c ∈ f ++ ['='] := by
            rw [hw1, hcw]
            exact List.mem_append.mpr (Or.inr (List.mem_cons_self _ _))
          rcases List.mem_append.mp hcmem with hm | hm
          · exact hcf hm
          · exact hce (List.mem_singleton.mp hm)
      · refine hsuf (clean_core_split k v a f w hek hev hef ?_)
        rw [hcore, hw1, List.append_assoc, List.singleton_append]

/-- One field's substitution over a clean delimited record rewrites exactly
that field's values to the redaction and copies everything else. -/
theorem subRun_mkRecL (f red : List Char) (c : Char)
    (ps : List (List Char × List Char))
    (hce : c ≠ '=') (hcf : c ∉ f) (hef : '=' ∉ f)
    (hps : ∀ kv ∈ ps, c ∉ kv.1 ∧ '=' ∉ kv.1 ∧ c ∉ kv.2 ∧ '\n' ∉ kv.2
      ∧ '=' ∉ kv.2)
    (hsuf : ∀ kv ∈ ps, kv.1 ≠ f → ¬ ∃ a, kv.1 = a ++ f) :
    subRun (litToks (f ++ ['=']) ++ [RTok.star true RAtom.dot, RTok.atom (RAtom.lit c)])
      ((f ++ ['=']) ++ (red ++ [c])) (mkRecL ps c)
      = mkRecL (ps.map (fun kv => if kv.1 = f then (kv.1, red) else kv)) c := by
  induction ps with
  | nil =>
    refine subRun_nil _ _ ?_
    rw [mtks_litToks]
    have hlw : leadsWith (f ++ ['=']) [] = false := by
      cases f with
      | nil => rfl
      | cons a as => rfl
    rw [hlw]
    rfl
  | cons kv ps ih =>
    obtain ⟨k, v⟩ := kv
    obtain ⟨hck, hek, hcv, hnv, hev⟩ := hps (k, v) (List.mem_cons_self _ _)
    have hmk : mkRecL ((k, v) :: ps) c = (k ++ '=' :: v ++ [c]) ++ mkRecL ps c := by
      show ((((k, v) :: ps).map (fun kv => kv.1 ++ '=' :: kv.2 ++ [c])).flatten) = _
      rw [List.map_cons, List.flatten_cons]
      rfl
    by_cases hkf : k = f
    · subst hkf
      rw [hmk]
      have hre : (k ++ '=' :: v ++ [c]) ++ mkRecL ps c
          = (k ++ ['=']) ++ (v ++ c :: mkRecL ps c) := by
        simp [List.append_assoc]
      rw [hre]
      have hmt : mtks (litToks (k ++ ['=']) ++ [RTok.star true RAtom.dot, RTok.atom (RAtom.lit c)])
          ((k ++ ['=']) ++ (v ++ c :: mkRecL ps c)) = some (mkRecL ps c) := by
        rw [mtks_litToks, leadsWith_append_self, List.drop_left]
        exact mtks_lazy_dot_sep c v (mkRecL ps c) hcv hnv
      have hlt : (mkRecL ps c).length
          < ((k ++ ['=']) ++ (v ++ c :: mkRecL ps c)).length := by
        simp [List.length_append]
        omega
      rw [subRun_match _ _ _ _ hmt hlt]
      rw [ih (fun kv2 hkv2 => hps kv2 (List.mem_cons_of_mem _ hkv2))
        (fun kv2 hkv2 => hsuf kv2 (List.mem_cons_of_mem _ hkv2))]
      simp [mkRecL, List.append_assoc]
    · rw [hmk]
      rw [subRun_append_pass (f ++ ['=']) [RTok.star true RAtom.dot, RTok.atom (RAtom.lit c)]
        ((f ++ ['=']) ++ (red ++ [c])) (k ++ '=' :: v ++ [c]) (mkRecL ps c)
        (fun b hb hab => no_tag_in_clean_segment f k v (mkRecL ps c) c hce hcf
          hef hck hek hcv hev
          (hsuf (k, v) (List.mem_cons_self _ _) hkf) b hb hab)]
      rw [ih (fun kv2 hkv2 => hps kv2 (List.mem_cons_of_mem _ hkv2))
        (fun kv2 hkv2 => hsuf kv2 (List.mem_cons_of_mem _ hkv2))]
      simp [mkRecL, hkf, List.append_assoc]

/-- A non-metacharacter is not unmodelled, not a quantifier and not the
dot. -/
theorem meta_false_parts (ch : Char) (h : isMetaCh ch = false) :
    isUnmodeledCh ch = false ∧ isQuantCh ch = false ∧ (ch == '.') = false := by
  unfold isMetaCh at h
  simp only [Bool.or_eq_false_iff] at h
  exact ⟨h.1.1.1.1, h.1.1.1.2, h.1.1.2⟩

/-- A non-metacharacter differs from every metacharacter. -/
theorem meta_false_not (ch c₀ : Char) (h : isMetaCh ch = false)
    (h₀ : isMetaCh c₀ = true) : (ch == c₀) = false := by
  cases hb : ch == c₀ with
  | false => rfl
  | true =>
    have he : ch = c₀ := beq_iff_eq.mp hb
    rw [he] at h
    rw [h₀] at h
    exact Bool.noConfusion h

/-- Parser step: a non-metacharacter after a pending token emits the
pending token and makes the character the new pending literal atom. -/
theorem parseREAux_generic (ch : Char) (rest : List Char) (t : RTok)
    (h : isMetaCh ch = false) :
    parseREAux (some t) (ch :: rest)
      = (parseREAux (some (RTok.atom (RAtom.lit ch))) rest).map
          (fun ts => t :: ts) := by
  have hU := (meta_false_parts ch h).1
  have hS := meta_false_not ch '*' h (by decide)
  have hP := meta_false_not ch '+' h (by decide)
  have hQ := meta_false_not ch '?' h (by decide)
  have hD := meta_false_not ch '.' h (by decide)
  simp only [parseREAux]
  rw [hU, hS, hP, hQ, hD]
  rfl

/-- Parser step: a non-metacharacter with nothing pending makes the
character the pending literal atom. -/
theorem parseREAux_generic_none (ch : Char) (rest : List Char)
    (h : isMetaCh ch = false) :
    parseREAux none (ch :: rest)
      = parseREAux (some (RTok.atom (RAtom.lit ch))) rest := by
  have hU := (meta_false_parts ch h).1
  have hS := meta_false_not ch '*' h (by decide)
  have hP := meta_false_not ch '+' h (by decide)
  have hQ := meta_false_not ch '?' h (by decide)
  have hD := meta_false_not ch '.' h (by decide)
  simp only [parseREAux]
  rw [hU, hS, hP, hQ, hD]
  rfl

/-- Parsing the tail `.*?<sep>` of the interpolated pattern after any
pending token yields the lazy dot star and the literal separator. -/
theorem parseREAux_tail (c : Char) (t : RTok) (hc : isMetaCh c = false) :
    parseREAux (some t) ('.' :: '*' :: '?' :: [c])
      = some (t :: RTok.star true RAtom.dot :: [RTok.atom (RAtom.lit c)]) := by
  have hU := (meta_false_parts c hc).1
  have hS := meta_false_not c '*' hc (by decide)
  have hP := meta_false_not c '+' hc (by decide)
  have hQ := meta_false_not c '?' hc (by decide)
  have hD := meta_false_not c '.' hc (by decide)
  rw [show parseREAux (some t) ('.' :: '*' :: '?' :: [c])
      = (parseREAux (some (RTok.atom RAtom.dot)) ('*' :: '?' :: [c])).map
          (fun ts => t :: ts) from rfl]
  rw [show parseREAux (some (RTok.atom RAtom.dot)) ('*' :: '?' :: [c])
      = parseREAux (some (RTok.star false RAtom.dot)) ('?' :: [c]) from rfl]
  rw [show parseREAux (some (RTok.star false RAtom.dot)) ('?' :: [c])
      = parseREAux (some (RTok.star true RAtom.dot)) [c] from rfl]
  rw [show parseREAux (some (RTok.star true RAtom.dot)) [c]
      = (if isUnmodeledCh c then none
         else if c == '*' then none
         else if c == '+' then none
         else if c == '?' then none
         else (parseREAux (some (RTok.atom (if c == '.' then RAtom.dot else RAtom.lit c))) []).map
           (fun ts => RTok.star true RAtom.dot :: ts)) from rfl]
  rw [hU, hS, hP, hQ, hD]
  rfl

/-- Parsing a metacharacter-free run before the pattern tail turns every
character into a literal token, emitted behind the pending token. -/
theorem parseREAux_run (f : List Char) (c : Char) (t : RTok)
    (hf : ∀ ch ∈ f, isMetaCh ch = false) (hc : isMetaCh c = false) :
    parseREAux (some t) (f ++ '=' :: '.' :: '*' :: '?' :: [c])
      = some (t :: (litToks (f ++ ['='])
          ++ [RTok.star true RAtom.dot, RTok.atom (RAtom.lit c)])) := by
  induction f generalizing t with
  | nil =>
    show parseREAux (some t) ('=' :: '.' :: '*' :: '?' :: [c]) = _
    rw [parseREAux_generic '=' ('.' :: '*' :: '?' :: [c]) t (by decide)]
    rw [parseREAux_tail c (RTok.atom (RAtom.lit '=')) hc]
    rfl
  | cons ch f' ih =>
    have hm := hf ch (List.mem_cons_self _ _)
    show parseREAux (some t) (ch :: (f' ++ '=' :: '.' :: '*' :: '?' :: [c])) = _
    rw [parseREAux_generic ch (f' ++ '=' :: '.' :: '*' :: '?' :: [c]) t hm]
    rw [ih (RTok.atom (RAtom.lit ch)) (fun x hx => hf x (List.mem_cons_of_mem _ hx))]
    rfl

/-- Parsing the interpolated pattern `field=.*?<sep>` with a
metacharacter-free field and separator yields literal tokens around the
lazy dot star. -/
theorem parseRE_simple (f : List Char) (c : Char)
    (hf : ∀ ch ∈ f, isMetaCh ch = false) (hc : isMetaCh c = false) :
    parseRE (f ++ '=' :: '.' :: '*' :: '?' :: [c])
      = some (litToks (f ++ ['='])
          ++ [RTok.star true RAtom.dot, RTok.atom (RAtom.lit c)]) := by
  cases f with
  | nil =>
    show parseREAux none ('=' :: '.' :: '*' :: '?' :: [c]) = _
    rw [parseREAux_generic_none '=' ('.' :: '*' :: '?' :: [c]) (by decide)]
    rw [parseREAux_tail c (RTok.atom (RAtom.lit '=')) hc]
    rfl
  | cons ch f' =>
    show parseREAux none (ch :: (f' ++ '=' :: '.' :: '*' :: '?' :: [c])) = _
    rw [parseREAux_generic_none ch (f' ++ '=' :: '.' :: '*' :: '?' :: [c])
      (hf ch (List.mem_cons_self _ _))]
    rw [parseREAux_run f' c (RTok.atom (RAtom.lit ch))
      (fun x hx => hf x (List.mem_cons_of_mem _ hx)) hc]
    rfl

/-- Binding a present option applies the continuation. -/
theorem optionSomeBind {α β : Type} (a : α) (g : α → Option β) :
    (some a >>= g) = g a := rfl

/-- The per-field fold of re.sub over a clean delimited record redacts
exactly the listed fields. -/
theorem foldlM_redacts (fields : List String) (red : List Char) (c : Char)
    (hce : c ≠ '=') (hcm : isMetaCh c = false)
    (hred : c ∉ red ∧ '\n' ∉ red ∧ '=' ∉ red ∧ '\\' ∉ red) :
    ∀ psL : List (List Char × List Char),
      (∀ f ∈ fields, c ∉ f.toList ∧ '=' ∉ f.toList ∧
        ∀ ch ∈ f.toList, isMetaCh ch = false) →
      (∀ kv ∈ psL, c ∉ kv.1 ∧ '=' ∉ kv.1 ∧ c ∉ kv.2 ∧ '\n' ∉ kv.2
        ∧ '=' ∉ kv.2) →
      (∀ f ∈ fields, ∀ kv ∈ psL, kv.1 ≠ f.toList → ¬ ∃ a, kv.1 = a ++ f.toList) →
      (fields.foldlM
        (fun m f => re_sub (f.toList ++ '=' :: '.' :: '*' :: '?' :: [c])
          (f.toList ++ '=' :: (red ++ [c])) m)
        (mkRecL psL c))
        = some (mkRecL (psL.map
            (fun kv => if kv.1 ∈ fields.map String.toList then (kv.1, red) else kv)) c) := by
  induction fields with
  | nil =>
    intro psL _ _ _
    show some (mkRecL psL c) = _
    rw [show psL.map (fun kv =>
        if kv.1 ∈ (([] : List String)).map String.toList then (kv.1, red) else kv)
        = psL from by
      rw [List.map_congr_left (fun kv _ => if_neg (by simp)), List.map_id']]
  | cons f fs ih =>
    intro psL hfields hps hsuf
    obtain ⟨hcf, hef, hmf⟩ := hfields f (List.mem_cons_self _ _)
    rw [List.foldlM_cons]
    have hrepl : ¬ ('\\' ∈ f.toList ++ '=' :: (red ++ [c])) := by
      intro hm
      rcases List.mem_append.mp hm with hm | hm
      · exact absurd (hmf '\\' hm) (by decide)
      · rcases List.mem_cons.mp hm with hm | hm
        · exact absurd hm (by decide)
        · rcases List.mem_append.mp hm with hm | hm
          · exact hred.2.2.2 hm
          · have hbc : '\\' = c := List.mem_singleton.mp hm
            rw [← hbc] at hcm
            exact absurd hcm (by decide)
    have hsub : re_sub (f.toList ++ '=' :: '.' :: '*' :: '?' :: [c])
        (f.toList ++ '=' :: (red ++ [c])) (mkRecL psL c)
        = some (mkRecL (psL.map
            (fun kv => if kv.1 = f.toList then (kv.1, red) else kv)) c) := by
      unfold re_sub
      rw [if_neg hrepl]
      rw [parseRE_simple f.toList c hmf hcm]
      rw [Option.map_some']
      refine congrArg some ?_
      have hre : f.toList ++ '=' :: (red ++ [c])
          = (f.toList ++ ['=']) ++ (red ++ [c]) := by
        simp
      rw [hre]
      exact subRun_mkRecL f.toList red c psL hce hcf hef hps
        (fun kv hkv hne => hsuf f (List.mem_cons_self _ _) kv hkv hne)
    rw [hsub]
    rw [optionSomeBind]
    rw [ih (psL.map (fun kv => if kv.1 = f.toList then (kv.1, red) else kv))
      (fun f2 hf2 => hfields f2 (List.mem_cons_of_mem _ hf2))
      (by
        intro kv2 hkv2
        obtain ⟨kv, hkv, hkvm⟩ := List.mem_map.mp hkv2
        rw [← hkvm]
        obtain ⟨h1, h2, h3, h4, h5⟩ := hps kv hkv
        by_cases hq : kv.1 = f.toList
        · rw [if_pos hq]
          exact ⟨h1, h2, hred.1, hred.2.1, hred.2.2.1⟩
        · rw [if_neg hq]
          exact ⟨h1, h2, h3, h4, h5⟩)
      (by
        intro f2 hf2 kv2 hkv2 hne
        obtain ⟨kv, hkv, hkvm⟩ := List.mem_map.mp hkv2
        have hfst : kv2.1 = kv.1 := by
          rw [← hkvm]
          by_cases hq : kv.1 = f.toList
          · rw [if_pos hq]
          · rw [if_neg hq]
        rw [hfst]
        rw [hfst] at hne
        exact hsuf f2 (List.mem_cons_of_mem _ hf2) kv hkv hne)]
    refine congrArg (fun l => some (mkRecL l c)) ?_
    rw [List.map_map]
    refine List.map_congr_left ?_
    intro kv hkv
    show (if (if kv.1 = f.toList then (kv.1, red) else kv).1 ∈ fs.map String.toList
        then ((if kv.1 = f.toList then (kv.1, red) else kv).1, red)
        else (if kv.1 = f.toList then (kv.1, red) else kv))
      = (if kv.1 ∈ f.toList :: fs.map String.toList then (kv.1, red) else kv)
    by_cases h1 : kv.1 = f.toList
    · rw [if_pos h1]
      by_cases h2 : kv.1 ∈ fs.map String.toList
      · rw [if_pos h2, if_pos (List.mem_cons.mpr (Or.inr h2))]
      · rw [if_neg h2, if_pos (List.mem_cons.mpr (Or.inl h1))]
    · rw [if_neg h1]
      by_cases h2 : kv.1 ∈ fs.map String.toList
      · rw [if_pos h2, if_pos (List.mem_cons.mpr (Or.inr h2))]
      · rw [if_neg h2, if_neg (by
          intro hm
          rcases List.mem_cons.mp hm with hm | hm
          · exact h1 hm
          · exact h2 hm)]

/-- C9 (amended): over a well-formed record — a single-character delimiter
that is not `=`, is not a regex metacharacter, and occurs in no field
name, key, value or marker; field names free of `=` and of regex
metacharacters; values and marker free of newlines and `=`, the marker
also free of backslashes; and no listed field name ending a different
key — `filter_datum` rewrites each listed field's value to the marker and
leaves every other segment unchanged. -/
theorem filter_datum_redacts (fields : List String) (red : String) (c : Char)
    (ps : List (String × String))
    (hce : c ≠ '=') (hcm : isMetaCh c = false)
    (hfields : ∀ f ∈ fields, c ∉ f.toList ∧ '=' ∉ f.toList ∧
      ∀ ch ∈ f.toList, isMetaCh ch = false)
    (hred : c ∉ red.toList ∧ '\n' ∉ red.toList ∧ '=' ∉ red.toList ∧
      '\\' ∉ red.toList)
    (hps : ∀ kv ∈ ps, c ∉ kv.1.toList ∧ '=' ∉ kv.1.toList ∧ c ∉ kv.2.toList
      ∧ '\n' ∉ kv.2.toList ∧ '=' ∉ kv.2.toList)
    (hsuf : ∀ f ∈ fields, ∀ kv ∈ ps, kv.1 ≠ f →
      endsIn f.toList kv.1.toList = false) :
    filter_datum fields red (mkRecord ps c) (String.mk [c])
      = some (mkRecord
          (ps.map (fun kv => if kv.1 ∈ fields then (kv.1, red) else kv)) c) := by
  show ((fields.foldlM
      (fun m f => re_sub (f.toList ++ '=' :: '.' :: '*' :: '?' :: [c])
        (f.toList ++ '=' :: (red.toList ++ [c])) m)
      (mkRecL (ps.map (fun kv => (kv.1.toList, kv.2.toList))) c))).map String.mk
    = some (String.mk (mkRecL
        ((ps.map (fun kv => if kv.1 ∈ fields then (kv.1, red) else kv)).map
          (fun kv => (kv.1.toList, kv.2.toList))) c))
  rw [foldlM_redacts fields red.toList c hce hcm hred
    (ps.map (fun kv => (kv.1.toList, kv.2.toList)))
    hfields
    (by
      intro kvL hkvL
      obtain ⟨kv, hkv, rfl⟩ := List.mem_map.mp hkvL
      exact hps kv hkv)
    (by
      intro f hf kvL hkvL hne
      obtain ⟨kv, hkv, rfl⟩ := List.mem_map.mp hkvL
      refine endsIn_false_no_split _ _ (hsuf f hf kv hkv ?_)
      intro heq
      exact hne (congrArg String.toList heq))]
  rw [Option.map_some']
  refine congrArg (fun l => some (String.mk l)) ?_
  refine congrArg (fun l => mkRecL l c) ?_
  rw [List.map_map, List.map_map]
  refine List.map_congr_left ?_
  intro kv hkv
  show (if kv.1.toList ∈ fields.map String.toList
      then (kv.1.toList, red.toList) else (kv.1.toList, kv.2.toList))
    = ((if kv.1 ∈ fields then (kv.1, red) else kv).1.toList,
       (if kv.1 ∈ fields then (kv.1, red) else kv).2.toList)
  by_cases h1 : kv.1 ∈ fields
  · rw [if_pos h1, if_pos (List.mem_map_of_mem String.toList h1)]
  · rw [if_neg h1, if_neg (fun hm => ?_)]
    obtain ⟨f, hf, hfe⟩ := List.mem_map.mp hm
    have hfeq : f = kv.1 := String.ext hfe
    rw [hfeq] at hf
    exact h1 hf

/-- C9 amended-claim witness: a concrete three-field record with two listed
fields redacted. -/
theorem filter_datum_redacts_witness :
    filter_datum ["password", "ssn"] "***"
      (mkRecord [("name", "bob"), ("password", "pw1"), ("ssn", "123")] ';')
      (String.mk [';'])
      = some (mkRecord
          ([("name", "bob"), ("password", "pw1"), ("ssn", "123")].map
            (fun kv => if kv.1 ∈ ["password", "ssn"] then (kv.1, "***")
              else kv)) ';') :=
  filter_datum_redacts ["password", "ssn"] "***" ';'
    [("name", "bob"), ("password", "pw1"), ("ssn", "123")]
    (by decide) (by decide) (by decide) (by decide) (by decide) (by decide)
